import Mathlib

/-! CVPuzzleSolver: `libbase/disjoint_set`

A shallow embedding of `DisjointSetUnion` (src/libs/base/libbase/disjoint_set.h and
disjoint_set.cpp) and the proofs of its contract.

* `std::vector<std::size_t>` is a `List Nat`; `std::size_t` arithmetic is taken modulo
  `SIZE_MOD = 2 ^ 64`.
* A member function that mutates the object returns its result together with the
  object it leaves behind, also when it throws, because a C++ exception does not undo
  the writes made before it.
* The two `while` loops run on a budget of `size()` iterations (`out_of_fuel` when the
  budget is used up); reading a vector past its end is `out_of_bounds`.
* Also embedded: the class `NaiveComponents` of disjoint_set_tests.cpp with the run of
  the differential test, and the `int` branch of `point2<T>::dot` (libbase/point2.cpp).
-/

namespace CVPuzzleSolver

/-- Number of values of `std::size_t` (64-bit targets). -/
def SIZE_MOD : Nat := 2 ^ 64

/-- The ways in which a call ends without a value. -/
inductive Failure where
  /-- A failed `rassert`: the error code, the offending value and the bound. -/
  | assertion_error (code value bound : Nat)
  /-- A vector was indexed at or past its length (undefined behaviour in C++). -/
  | out_of_bounds
  /-- A loop did not finish within its iteration budget. -/
  | out_of_fuel
  deriving DecidableEq

/-- Result of a call: a value, or a failure. -/
inductive Outcome (α : Type) where
  | ok (value : α)
  | fail (failure : Failure)
  deriving DecidableEq

/-- Modelled from the spec: the `rassert` macro of `libbase/runtime_assert.h`, which is
not among the sources.  A check that does not hold aborts the operation at once with a
diagnosable failure that carries the error code, the offending value and the valid
bound; a check that holds does nothing. -/
def rassert (cond : Bool) (code value bound : Nat) : Option Failure :=
  if cond then none else some (Failure.assertion_error code value bound)

/-- The two private vectors of `class DisjointSetUnion`. -/
structure DisjointSetUnion where
  parent_ : List Nat
  sz_ : List Nat
  deriving DecidableEq

namespace DisjointSetUnion

/-- The constructor loop `for (i = 0; i < n; ++i) parent_[i] = i;`. -/
def constructLoop (n : Nat) (parent : List Nat) : List Nat :=
  (List.range n).foldl (fun p i => p.set i i) parent

/-- The constructor `DisjointSetUnion::DisjointSetUnion(n)`: `parent_(n)` is value-initialised (zeros),
`sz_(n, 1)`, then the loop stores `parent_[i] = i`. -/
def construct (n : Nat) : DisjointSetUnion :=
  { parent_ := constructLoop n (List.replicate n 0), sz_ := List.replicate n 1 }

/-- The member `size()`, which is `parent_.size()`. -/
def size (d : DisjointSetUnion) : Nat := d.parent_.length

/-- The loop of the mutating `find`:
`while (parent_[x] != x) { parent_[x] = parent_[parent_[x]]; x = parent_[x]; } return x;` -/
def findLoop : Nat → List Nat → Nat → Outcome Nat × List Nat
  | 0, parent, _ => (Outcome.fail Failure.out_of_fuel, parent)
  | fuel + 1, parent, x =>
    match parent[x]? with
    | none => (Outcome.fail Failure.out_of_bounds, parent)
    | some p =>
      if p ≠ x then
        match parent[p]? with
        | none => (Outcome.fail Failure.out_of_bounds, parent)
        | some g => findLoop fuel (parent.set x g) g
      else (Outcome.ok x, parent)

/-- The mutating `find(x)` (path halving). -/
def find (d : DisjointSetUnion) (x : Nat) : Outcome Nat × DisjointSetUnion :=
  match rassert (decide (x < d.size)) 2391578193411 x d.size with
  | some e => (Outcome.fail e, d)
  | none =>
    let r := findLoop d.size d.parent_ x
    (r.1, { d with parent_ := r.2 })

/-- The loop of the `const` overload of `find`:
`while (parent_[x] != x) x = parent_[x]; return x;` -/
def findConstLoop (parent : List Nat) : Nat → Nat → Outcome Nat
  | 0, _ => Outcome.fail Failure.out_of_fuel
  | fuel + 1, x =>
    match parent[x]? with
    | none => Outcome.fail Failure.out_of_bounds
    | some p => if p ≠ x then findConstLoop parent fuel p else Outcome.ok x

/-- The overload `find(x) const` (no path compression); it cannot change the object. -/
def find_const (d : DisjointSetUnion) (x : Nat) : Outcome Nat :=
  match rassert (decide (x < d.size)) 2391578193412 x d.size with
  | some e => Outcome.fail e
  | none => findConstLoop d.parent_ d.size x

/-- The member `unite_roots(ra, rb)`.  The `std::swap(ra, rb)` under `sz_[ra] < sz_[rb]` is written
out as the two branches; `sz_[ra] += sz_[rb]` wraps modulo `SIZE_MOD`. -/
def unite_roots (d : DisjointSetUnion) (ra rb : Nat) : Outcome (Nat × Nat) × DisjointSetUnion :=
  match rassert (decide (ra < d.size)) 2391578193413 ra d.size with
  | some e => (Outcome.fail e, d)
  | none =>
    match rassert (decide (rb < d.size)) 2391578193414 rb d.size with
    | some e => (Outcome.fail e, d)
    | none =>
      if ra = rb then (Outcome.ok (ra, ra), d)
      else
        match d.sz_[ra]?, d.sz_[rb]? with
        | some sa, some sb =>
          if sa < sb then
            (Outcome.ok (rb, ra),
              { parent_ := d.parent_.set ra rb, sz_ := d.sz_.set rb ((sb + sa) % SIZE_MOD) })
          else
            (Outcome.ok (ra, rb),
              { parent_ := d.parent_.set rb ra, sz_ := d.sz_.set ra ((sa + sb) % SIZE_MOD) })
        | _, _ => (Outcome.fail Failure.out_of_bounds, d)

/-- The member `unite(a, b)`: two mutating finds, then `unite_roots`; returns `kept != absorbed`. -/
def unite (d : DisjointSetUnion) (a b : Nat) : Outcome Bool × DisjointSetUnion :=
  match find d a with
  | (Outcome.fail e, d1) => (Outcome.fail e, d1)
  | (Outcome.ok ra, d1) =>
    match find d1 b with
    | (Outcome.fail e, d2) => (Outcome.fail e, d2)
    | (Outcome.ok rb, d2) =>
      match unite_roots d2 ra rb with
      | (Outcome.fail e, d3) => (Outcome.fail e, d3)
      | (Outcome.ok (kept, absorbed), d3) => (Outcome.ok (kept != absorbed), d3)

/-- The member `set_size(x) const`: `sz_[find(x)]`, where `find` is the `const` overload because
`set_size` is itself `const`. -/
def set_size (d : DisjointSetUnion) (x : Nat) : Outcome Nat :=
  match find_const d x with
  | Outcome.fail e => Outcome.fail e
  | Outcome.ok r =>
    match d.sz_[r]? with
    | none => Outcome.fail Failure.out_of_bounds
    | some s => Outcome.ok s

/-- Index `r` is a root: `parent_[r] == r`. -/
def isRoot (d : DisjointSetUnion) (r : Nat) : Prop := d.parent_[r]? = some r

instance (d : DisjointSetUnion) (r : Nat) : Decidable (isRoot d r) := by
  unfold isRoot; infer_instance

/-- The states of a `DisjointSetUnion` built by `DisjointSetUnion(N)` (`N` a
`std::size_t`) and then driven by calls of the mutating member functions: `find`,
`unite` with any arguments, and `unite_roots` applied to two roots.  The `const`
members (`size`, `find const`, `set_size`) leave the object as it is. -/
inductive Reachable (N : Nat) : DisjointSetUnion → Prop where
  | construct : N < SIZE_MOD → Reachable N (construct N)
  | find (d : DisjointSetUnion) (x : Nat) : Reachable N d → Reachable N (find d x).2
  | unite (d : DisjointSetUnion) (a b : Nat) : Reachable N d → Reachable N (unite d a b).2
  | unite_roots (d : DisjointSetUnion) (ra rb : Nat) :
      Reachable N d → isRoot d ra → isRoot d rb → Reachable N (unite_roots d ra rb).2

end DisjointSetUnion

open DisjointSetUnion

/-! ## The representation invariant -/

/-- Number of indices below `N` that `rep` sends to `r`. -/
def fiberCard (N : Nat) (rep : Nat → Nat) (r : Nat) : Nat :=
  ((Finset.range N).filter (fun i => rep i = r)).card

/-- Number of indices below `N` whose rank is above that of `x`: the measure that
bounds the walk from `x` to its root. -/
def aboveCard (N : Nat) (rank : Nat → Nat) (x : Nat) : Nat :=
  ((Finset.range N).filter (fun j => rank x < rank j)).card

/-- The parent vector is a forest over `0..N-1`: every link stays below `N`, ranks grow
strictly along links that are not self-loops, and `rep` is constant along links and
the identity at roots. -/
structure Forest (N : Nat) (parent : List Nat) (rank rep : Nat → Nat) : Prop where
  len : parent.length = N
  link : ∀ i, i < N → ∃ p, parent[i]? = some p ∧ p < N ∧ (p ≠ i → rank i < rank p) ∧
    rep p = rep i ∧ (p = i → rep i = i)

/-- The invariant of `DisjointSetUnion`: the parents are a forest and each root stores
the number of elements it represents. -/
structure Inv (N : Nat) (d : DisjointSetUnion) (rank rep : Nat → Nat) : Prop where
  bound : N < SIZE_MOD
  forest : Forest N d.parent_ rank rep
  slen : d.sz_.length = N
  count : ∀ r, r < N → d.parent_[r]? = some r → d.sz_[r]? = some (fiberCard N rep r)

/-- The representative map after the set of `a` has been absorbed into that of `k`. -/
def mergeRep (rep : Nat → Nat) (k a : Nat) : Nat → Nat :=
  fun i => if rep i = a then k else rep i

/-- A rank that lifts the surviving root `k` above the absorbed root `a`. -/
def mergeRank (rank : Nat → Nat) (k a : Nat) : Nat → Nat :=
  fun i => if i = k then max (rank k) (rank a + 1) else rank i

/-- The pair `(kept, absorbed)` that union by size picks for two distinct roots whose
sets count `sa` and `sb` elements. -/
def pickRoots (ra rb sa sb : Nat) : Nat × Nat :=
  if sa < sb then (rb, ra) else (ra, rb)

/-- The representative map after `unite(a, b)`. -/
def uniteRep (N : Nat) (rep : Nat → Nat) (a b : Nat) : Nat → Nat :=
  if rep a = rep b then rep
  else
    mergeRep rep
      (pickRoots (rep a) (rep b) (fiberCard N rep (rep a)) (fiberCard N rep (rep b))).1
      (pickRoots (rep a) (rep b) (fiberCard N rep (rep a)) (fiberCard N rep (rep b))).2

/-! ## Definitions for failures, walks and depth -/

/-- The call ended with a value. -/
def Outcome.isOk {α : Type} : Outcome α → Bool
  | Outcome.ok _ => true
  | Outcome.fail _ => false

/-- The call ended with the out-of-range condition: a failed `rassert` on an index. -/
def Outcome.isOutOfRange {α : Type} : Outcome α → Bool
  | Outcome.fail (Failure.assertion_error _ _ _) => true
  | _ => false

/-- A reachable state with a path of two links: `DisjointSetUnion(4)` after
`unite(0, 1)`, `unite(2, 3)`, `unite(0, 2)`; its parents are `[0, 0, 0, 2]`, so that
`3 -> 2 -> 0`. -/
def chainState : DisjointSetUnion :=
  (unite (unite (unite (construct 4) 0 1).2 2 3).2 0 2).2

/-- The index reached from `x` after `k` parent links (`none` if a link leaves the
vector). -/
def ancestor (parent : List Nat) : Nat → Nat → Option Nat
  | 0, x => some x
  | k + 1, x =>
    match parent[x]? with
    | none => none
    | some p => ancestor parent k p

/-- The read `parent_[parent_[i]]`. -/
def grandparent (parent : List Nat) (i : Nat) : Option Nat :=
  match parent[i]? with
  | none => none
  | some p => parent[p]?

/-- The walk of path halving as the specification words it: `x0 = x` and
`x(k+1) = parent[parent[xk]]`, all read in the same parent vector, until a root is
reached.  The list holds the visited nodes, the root last. -/
def halvingWalk (parent : List Nat) : Nat → Nat → List Nat
  | 0, x => [x]
  | fuel + 1, x =>
    if parent[x]? = some x then [x]
    else
      match grandparent parent x with
      | none => [x]
      | some g => x :: halvingWalk parent fuel g

/-- Number of parent links from `x` to its root: the iterations of the `const` find
loop, counted. -/
def stepsToRoot (parent : List Nat) : Nat → Nat → Option Nat
  | 0, _ => none
  | fuel + 1, x =>
    match parent[x]? with
    | none => none
    | some p => if p ≠ x then (stepsToRoot parent fuel p).map (fun k => k + 1) else some 0

/-- Every element is at most logarithmically deep: two to the number of links from `x`
to its root is at most the number of elements of its set. -/
def Shallow (N : Nat) (d : DisjointSetUnion) (rep : Nat → Nat) : Prop :=
  ∀ x, x < N → ∃ k, stepsToRoot d.parent_ N x = some k ∧ 2 ^ k ≤ fiberCard N rep (rep x)

/-! ## `libbase/point2`: the integer dot product -/

/-- The constant `std::numeric_limits<int>::min()` (32-bit `int`). -/
def INT_MIN : Int := -2147483648

/-- The constant `std::numeric_limits<int>::max()` (32-bit `int`). -/
def INT_MAX : Int := 2147483647

/-- The value lies in the range of `int`. -/
def fitsInt (v : Int) : Prop := INT_MIN ≤ v ∧ v ≤ INT_MAX

instance (v : Int) : Decidable (fitsInt v) := by
  unfold fitsInt; infer_instance

/-- A `long long` result: the exact value wrapped to 64 bits, two's complement.  (C++
leaves signed overflow undefined; in `dot` it can happen only in `a + b`, for
`x = y = rhs.x = rhs.y = INT_MIN`, where the first check fails whatever the sum.) -/
def wrapLongLong (v : Int) : Int :=
  (v + 9223372036854775808) % 18446744073709551616 - 9223372036854775808

/-- The conversion `static_cast<int>` of a `long long`: wrap to 32 bits. -/
def wrapInt (v : Int) : Int := (v + 2147483648) % 4294967296 - 2147483648

/-- The three checks of `dot`, named after their `what` strings. -/
inductive DotCheck where
  | dot_mul_x
  | dot_mul_y
  | dot_sum
  deriving DecidableEq

/-- Result of an `int` computation of `point2<int>`: a value, or the
`assertion_error` of a failed overflow check with the check and the value it saw. -/
inductive IntOutcome where
  | value (v : Int)
  | assertion_error (what : DotCheck) (v : Int)
  deriving DecidableEq

/-- The struct `point2<int>`, that is `point2i`. -/
structure point2i where
  x : Int
  y : Int
  deriving DecidableEq

/-- The helper `rassert_int_fits<int>(v, what)`: the check `v >= mn && v <= mx`.
Modelled from the spec for the absent `rassert` macro: a failed check throws
`assertion_error` (as point2_tests.cpp expects), a passed check does nothing. -/
def rassert_int_fits (v : Int) (what : DotCheck) : Option IntOutcome :=
  if INT_MIN ≤ v ∧ v ≤ INT_MAX then none else some (IntOutcome.assertion_error what v)

/-- The member `point2<int>::dot`: the `is_same_v<T, int>` branch. -/
def point2i.dot (p rhs : point2i) : IntOutcome :=
  let a := wrapLongLong (p.x * rhs.x)
  let b := wrapLongLong (p.y * rhs.y)
  let s := wrapLongLong (a + b)
  match rassert_int_fits a DotCheck.dot_mul_x with
  | some e => e
  | none =>
    match rassert_int_fits b DotCheck.dot_mul_y with
    | some e => e
    | none =>
      match rassert_int_fits s DotCheck.dot_sum with
      | some e => e
      | none => IntOutcome.value (wrapInt s)

/-- The member `point2<int>::norm2`: `dot(*this)`. -/
def point2i.norm2 (p : point2i) : IntOutcome := p.dot p

/-! ## The naive reference of the tests and the differential run -/

/-- The conversion `static_cast<int>(i)` of a `std::size_t`: wrap to 32 bits. -/
def castInt (i : Nat) : Int := wrapInt (i : Int)

/-- The class `NaiveComponents` of disjoint_set_tests.cpp: one component label per
element. -/
structure NaiveComponents where
  comp_ : List Int
  deriving DecidableEq

namespace NaiveComponents

/-- The constructor loop `for (i = 0; i < n; ++i) comp_[i] = static_cast<int>(i);`. -/
def constructLoop (n : Nat) (comp : List Int) : List Int :=
  (List.range n).foldl (fun c i => c.set i (castInt i)) comp

/-- The constructor `NaiveComponents(n)`: `comp_(n)` is value-initialised (zeros), then
the loop stores the labels. -/
def construct (n : Nat) : NaiveComponents :=
  { comp_ := constructLoop n (List.replicate n 0) }

/-- The member `NaiveComponents::unite(a, b)`: when the labels differ, every label equal
to that of `b` is recoloured into that of `a`.  The vector is indexed without a check,
so an index past the end is `out_of_bounds`. -/
def unite (nv : NaiveComponents) (a b : Nat) : Outcome Bool × NaiveComponents :=
  match nv.comp_[a]?, nv.comp_[b]? with
  | some ca, some cb =>
    if ca = cb then (Outcome.ok false, nv)
    else (Outcome.ok true, { comp_ := nv.comp_.map (fun c => if c = cb then ca else c) })
  | _, _ => (Outcome.fail Failure.out_of_bounds, nv)

/-- The member `NaiveComponents::same(a, b) const`. -/
def same (nv : NaiveComponents) (a b : Nat) : Outcome Bool :=
  match nv.comp_[a]?, nv.comp_[b]? with
  | some ca, some cb => Outcome.ok (decide (ca = cb))
  | _, _ => Outcome.fail Failure.out_of_bounds

/-- The member `NaiveComponents::set_size(x) const`: the loop that counts the labels
equal to that of `x`. -/
def set_size (nv : NaiveComponents) (x : Nat) : Outcome Nat :=
  match nv.comp_[x]? with
  | some cx => Outcome.ok (nv.comp_.foldl (fun cnt c => if c = cx then cnt + 1 else cnt) 0)
  | none => Outcome.fail Failure.out_of_bounds

end NaiveComponents

/-- One operation of the differential test: a `unite`, a same-set query or a `set_size`
query. -/
inductive Op where
  | unite (a b : Nat)
  | same (a b : Nat)
  | set_size (x : Nat)
  deriving DecidableEq

/-- The answer to an operation: a boolean or a number. -/
inductive Answer where
  | bool (b : Bool)
  | count (n : Nat)
  deriving DecidableEq

/-- All index arguments of the operation are below `N`. -/
def Op.inRange (N : Nat) : Op → Prop
  | Op.unite a b => a < N ∧ b < N
  | Op.same a b => a < N ∧ b < N
  | Op.set_size x => x < N

/-- One operation on the `DisjointSetUnion`, as the test drives it: `dsu.unite(a, b)`,
`dsu.find(a) == dsu.find(b)` with the mutating finds (left operand first), and
`dsu.set_size(x)`. -/
def stepDsu (d : DisjointSetUnion) : Op → Outcome Answer × DisjointSetUnion
  | Op.unite a b =>
    match DisjointSetUnion.unite d a b with
    | (Outcome.ok m, d1) => (Outcome.ok (Answer.bool m), d1)
    | (Outcome.fail e, d1) => (Outcome.fail e, d1)
  | Op.same a b =>
    match DisjointSetUnion.find d a with
    | (Outcome.fail e, d1) => (Outcome.fail e, d1)
    | (Outcome.ok ra, d1) =>
      match DisjointSetUnion.find d1 b with
      | (Outcome.fail e, d2) => (Outcome.fail e, d2)
      | (Outcome.ok rb, d2) => (Outcome.ok (Answer.bool (ra == rb)), d2)
  | Op.set_size x =>
    match DisjointSetUnion.set_size d x with
    | Outcome.ok n => (Outcome.ok (Answer.count n), d)
    | Outcome.fail e => (Outcome.fail e, d)

/-- One operation on the naive reference: `ref.unite(a, b)`, `ref.same(a, b)` and
`ref.set_size(x)`. -/
def stepNaive (nv : NaiveComponents) : Op → Outcome Answer × NaiveComponents
  | Op.unite a b =>
    match NaiveComponents.unite nv a b with
    | (Outcome.ok m, nv1) => (Outcome.ok (Answer.bool m), nv1)
    | (Outcome.fail e, nv1) => (Outcome.fail e, nv1)
  | Op.same a b =>
    match NaiveComponents.same nv a b with
    | Outcome.ok m => (Outcome.ok (Answer.bool m), nv)
    | Outcome.fail e => (Outcome.fail e, nv)
  | Op.set_size x =>
    match NaiveComponents.set_size nv x with
    | Outcome.ok n => (Outcome.ok (Answer.count n), nv)
    | Outcome.fail e => (Outcome.fail e, nv)

/-- The answers of a sequence of operations run on the `DisjointSetUnion`. -/
def runDsu : DisjointSetUnion → List Op → List (Outcome Answer)
  | _, [] => []
  | d, op :: ops => (stepDsu d op).1 :: runDsu (stepDsu d op).2 ops

/-- The answers of a sequence of operations run on the naive reference. -/
def runNaive : NaiveComponents → List Op → List (Outcome Answer)
  | _, [] => []
  | nv, op :: ops => (stepNaive nv op).1 :: runNaive (stepNaive nv op).2 ops

/-- The naive labels describe the partition of `rep`: two elements below `N` carry the
same label exactly when they have the same representative. -/
structure Agree (N : Nat) (nv : NaiveComponents) (rep : Nat → Nat) : Prop where
  len : nv.comp_.length = N
  same : ∀ i j, i < N → j < N → (nv.comp_[i]? = nv.comp_[j]? ↔ rep i = rep j)

instance (N : Nat) (op : Op) : Decidable (op.inRange N) := by
  cases op <;> unfold Op.inRange <;> infer_instance

theorem constructLoop_getElem? (k : Nat) (l : List Nat) (j : Nat) :
    (constructLoop k l)[j]? = if j < k ∧ j < l.length then some j else l[j]? := by
  induction k with
  | zero => simp [constructLoop]
  | succ k ih =>
    have h : constructLoop (k + 1) l = (constructLoop k l).set k k := by
      simp [constructLoop, List.range_succ, List.foldl_append]
    have hl : ∀ m, (constructLoop m l).length = l.length := by
      intro m
      induction m with
      | zero => simp [constructLoop]
      | succ m ihm =>
        have : constructLoop (m + 1) l = (constructLoop m l).set m m := by
          simp [constructLoop, List.range_succ, List.foldl_append]
        rw [this, List.length_set, ihm]
    rw [h, List.getElem?_set, ih]
    by_cases hkj : k = j
    · subst hkj
      simp only [hl, lt_self_iff_false, false_and, if_false]
      by_cases h1 : k < l.length
      · simp [h1]
      · simp [h1, List.getElem?_eq_none (Nat.le_of_not_lt h1)]
    · simp only [hkj, if_false]
      by_cases h1 : j < k
      · have : j < k + 1 := by omega
        simp [h1, this]
      · have : ¬ j < k + 1 := by omega
        simp [h1, this]

theorem construct_parent (n : Nat) : (construct n).parent_ = List.range n := by
  apply List.ext_getElem?
  intro j
  simp only [construct, constructLoop_getElem?, List.length_replicate]
  by_cases h : j < n
  · simp [h, List.getElem?_range]
  · have h2 : n ≤ j := Nat.le_of_not_lt h
    simp [h, List.getElem?_eq_none, List.getElem?_replicate, h2]

theorem construct_size (n : Nat) : (construct n).size = n := by
  simp [size, construct_parent]

/-! ## The two loops on a forest -/

theorem aboveCard_lt_of_rank_lt {N : Nat} {rank : Nat → Nat} {x p : Nat} (hp : p < N)
    (h : rank x < rank p) : aboveCard N rank p < aboveCard N rank x := by
  unfold aboveCard
  apply Finset.card_lt_card
  rw [Finset.ssubset_iff_of_subset]
  · exact ⟨p, by simp [hp, h], by simp⟩
  · intro j
    simp only [Finset.mem_filter, Finset.mem_range]
    intro hj
    exact ⟨hj.1, by omega⟩

theorem aboveCard_lt {N : Nat} (rank : Nat → Nat) {x : Nat} (hx : x < N) :
    aboveCard N rank x < N := by
  have hss : (Finset.range N).filter (fun j => rank x < rank j) ⊂ Finset.range N := by
    rw [Finset.ssubset_iff_of_subset (Finset.filter_subset _ _)]
    exact ⟨x, by simp [hx], by simp⟩
  have := Finset.card_lt_card hss
  simpa [aboveCard] using this

theorem findConstLoop_eq {N : Nat} {parent : List Nat} {rank rep : Nat → Nat}
    (F : Forest N parent rank rep) :
    ∀ fuel x, x < N → aboveCard N rank x < fuel →
      findConstLoop parent fuel x = Outcome.ok (rep x) ∧
        parent[rep x]? = some (rep x) ∧ rep x < N := by
  intro fuel
  induction fuel with
  | zero => intro x _ h; exact absurd h (Nat.not_lt_zero _)
  | succ fuel ih =>
    intro x hx hf
    obtain ⟨p, hp, hpN, hrank, hrep, hroot⟩ := F.link x hx
    by_cases hpx : p = x
    · subst hpx
      have hr := hroot rfl
      simp [findConstLoop, hp, hr, hx]
    · have h1 := aboveCard_lt_of_rank_lt hpN (hrank hpx)
      have h2 := ih p hpN (by omega)
      simp only [findConstLoop, hp, ne_eq, hpx, not_false_eq_true, if_true]
      rw [← hrep]
      exact h2

theorem findLoop_eq {N : Nat} {rank rep : Nat → Nat} :
    ∀ fuel parent x, Forest N parent rank rep → x < N → aboveCard N rank x < fuel →
      ∃ parent', findLoop fuel parent x = (Outcome.ok (rep x), parent') ∧
        Forest N parent' rank rep ∧ ∀ r : Nat, parent'[r]? = some r ↔ parent[r]? = some r := by
  intro fuel
  induction fuel with
  | zero => intro parent x _ _ h; exact absurd h (Nat.not_lt_zero _)
  | succ fuel ih =>
    intro parent x F hx hf
    obtain ⟨p, hp, hpN, hrank, hrep, hroot⟩ := F.link x hx
    by_cases hpx : p = x
    · subst hpx
      refine ⟨parent, ?_, F, fun r => Iff.rfl⟩
      simp [findLoop, hp, hroot rfl]
    · obtain ⟨g, hg, hgN, hrankg, hrepg, _⟩ := F.link p hpN
      have hxp : rank x < rank p := hrank hpx
      have hpg : rank p ≤ rank g := by
        by_cases hgp : g = p
        · rw [hgp]
        · exact Nat.le_of_lt (hrankg hgp)
      have hxg : rank x < rank g := by omega
      have hgx : g ≠ x := by
        intro h; rw [h] at hxg; exact Nat.lt_irrefl _ hxg
      have hxlen : x < parent.length := by rw [F.len]; exact hx
      have F1 : Forest N (parent.set x g) rank rep := by
        refine ⟨by rw [List.length_set]; exact F.len, ?_⟩
        intro i hi
        by_cases hix : i = x
        · subst hix
          refine ⟨g, ?_, hgN, fun _ => hxg, by rw [hrepg, hrep], fun h => absurd h hgx⟩
          simp [List.getElem?_set, hxlen]
        · obtain ⟨q, hq, hqN, h1, h2, h3⟩ := F.link i hi
          refine ⟨q, ?_, hqN, h1, h2, h3⟩
          rw [List.getElem?_set_ne (Ne.symm hix)]
          exact hq
      obtain ⟨parent', e, F2, hroots⟩ :=
        ih (parent.set x g) g F1 hgN (by
          have := aboveCard_lt_of_rank_lt hgN hxg
          omega)
      refine ⟨parent', ?_, F2, ?_⟩
      · simp only [findLoop, hp, ne_eq, hpx, not_false_eq_true, if_true, hg]
        rw [e, hrepg, hrep]
      · intro r
        rw [hroots r]
        by_cases hrx : r = x
        · subst hrx
          simp [List.getElem?_set, hxlen, hp, hpx, hgx]
        · rw [List.getElem?_set_ne (Ne.symm hrx)]

/-- The iteration budget is immaterial: a `const` walk that finishes within a budget
gives the same result on every larger budget. -/
theorem findConstLoop_fuel_mono (parent : List Nat) :
    ∀ fuel x r, findConstLoop parent fuel x = Outcome.ok r →
      ∀ k, findConstLoop parent (fuel + k) x = Outcome.ok r := by
  intro fuel
  induction fuel with
  | zero => intro x r h; simp [findConstLoop] at h
  | succ fuel ih =>
    intro x r h k
    have hk : fuel + 1 + k = (fuel + k) + 1 := by omega
    rw [hk]
    cases hp : parent[x]? with
    | none => simp [findConstLoop, hp] at h
    | some p =>
      by_cases hpx : p = x
      · simp only [findConstLoop, hp, hpx, ne_eq, not_true_eq_false, if_false] at h ⊢
        exact h
      · simp only [findConstLoop, hp, ne_eq, hpx, not_false_eq_true, if_true] at h ⊢
        exact ih p r h k

/-- The iteration budget is immaterial: a path-halving walk that finishes within a
budget gives the same result and the same parent vector on every larger budget. -/
theorem findLoop_fuel_mono :
    ∀ fuel parent x r parent', findLoop fuel parent x = (Outcome.ok r, parent') →
      ∀ k, findLoop (fuel + k) parent x = (Outcome.ok r, parent') := by
  intro fuel
  induction fuel with
  | zero => intro parent x r parent' h; simp [findLoop] at h
  | succ fuel ih =>
    intro parent x r parent' h k
    have hk : fuel + 1 + k = (fuel + k) + 1 := by omega
    rw [hk]
    cases hp : parent[x]? with
    | none => simp [findLoop, hp] at h
    | some p =>
      by_cases hpx : p = x
      · simp only [findLoop, hp, hpx, ne_eq, not_true_eq_false, if_false] at h ⊢
        exact h
      · cases hg : parent[p]? with
        | none => simp [findLoop, hp, hpx, hg] at h
        | some g =>
          simp only [findLoop, hp, ne_eq, hpx, not_false_eq_true, if_true, hg] at h ⊢
          exact ih _ g r parent' h k

/-! ## The member functions on a state that satisfies the invariant -/

theorem Inv.size_eq {N : Nat} {d : DisjointSetUnion} {rank rep : Nat → Nat}
    (I : Inv N d rank rep) : d.size = N := I.forest.len

theorem Inv.rep_root {N : Nat} {d : DisjointSetUnion} {rank rep : Nat → Nat}
    (I : Inv N d rank rep) {r : Nat} (h : isRoot d r) : r < N ∧ rep r = r := by
  have hlt : r < d.parent_.length := by
    by_contra hc
    have hn := List.getElem?_eq_none (Nat.le_of_not_lt hc)
    unfold isRoot at h
    rw [hn] at h
    exact Option.noConfusion h
  have hN : r < N := by rw [← I.forest.len]; exact hlt
  obtain ⟨p, hp, _, _, _, hroot⟩ := I.forest.link r hN
  unfold isRoot at h
  rw [hp] at h
  exact ⟨hN, hroot (Option.some.inj h)⟩

theorem find_const_inv {N : Nat} {d : DisjointSetUnion} {rank rep : Nat → Nat}
    (I : Inv N d rank rep) {x : Nat} (hx : x < N) :
    find_const d x = Outcome.ok (rep x) ∧ isRoot d (rep x) ∧ rep x < N := by
  have h := findConstLoop_eq I.forest N x hx (aboveCard_lt rank hx)
  refine ⟨?_, h.2.1, h.2.2⟩
  simp [find_const, rassert, I.size_eq, hx, h.1]

theorem find_inv {N : Nat} {d : DisjointSetUnion} {rank rep : Nat → Nat}
    (I : Inv N d rank rep) {x : Nat} (hx : x < N) :
    ∃ d', find d x = (Outcome.ok (rep x), d') ∧ Inv N d' rank rep ∧ d'.sz_ = d.sz_ ∧
      ∀ r, isRoot d' r ↔ isRoot d r := by
  obtain ⟨parent', e, F, hroots⟩ := findLoop_eq N d.parent_ x I.forest hx (aboveCard_lt rank hx)
  refine ⟨{ d with parent_ := parent' }, ?_, ⟨I.bound, F, I.slen, ?_⟩, rfl, hroots⟩
  · simp [find, rassert, I.size_eq, hx, e]
  · intro r hr hroot
    exact I.count r hr ((hroots r).1 hroot)

theorem find_out_of_range (d : DisjointSetUnion) {x : Nat} (hx : ¬ x < d.size) :
    find d x = (Outcome.fail (Failure.assertion_error 2391578193411 x d.size), d) := by
  simp [find, rassert, hx]

theorem set_size_inv {N : Nat} {d : DisjointSetUnion} {rank rep : Nat → Nat}
    (I : Inv N d rank rep) {x : Nat} (hx : x < N) :
    set_size d x = Outcome.ok (fiberCard N rep (rep x)) := by
  obtain ⟨e, hroot, hlt⟩ := find_const_inv I hx
  simp [set_size, e, I.count _ hlt hroot]

theorem fiberCard_le (N : Nat) (rep : Nat → Nat) (r : Nat) : fiberCard N rep r ≤ N := by
  have := Finset.card_filter_le (Finset.range N) (fun i => rep i = r)
  simpa [fiberCard] using this

theorem fiberCard_merge_kept (N : Nat) (rep : Nat → Nat) {k a : Nat} (h : k ≠ a) :
    fiberCard N (mergeRep rep k a) k = fiberCard N rep k + fiberCard N rep a := by
  unfold fiberCard mergeRep
  have hcongr : (Finset.range N).filter (fun i => (if rep i = a then k else rep i) = k) =
      (Finset.range N).filter (fun i => rep i = k) ∪
        (Finset.range N).filter (fun i => rep i = a) := by
    ext i
    simp only [Finset.mem_filter, Finset.mem_union, Finset.mem_range]
    by_cases hia : rep i = a
    · simp only [hia, if_true, true_and, and_true]
      tauto
    · simp [hia]
  rw [hcongr]
  apply Finset.card_union_of_disjoint
  rw [Finset.disjoint_left]
  intro i h1 h2
  simp only [Finset.mem_filter] at h1 h2
  exact h (h1.2.symm.trans h2.2)

theorem fiberCard_merge_other (N : Nat) (rep : Nat → Nat) {k a r : Nat} (hk : r ≠ k)
    (ha : r ≠ a) : fiberCard N (mergeRep rep k a) r = fiberCard N rep r := by
  unfold fiberCard mergeRep
  congr 1
  ext i
  simp only [Finset.mem_filter, Finset.mem_range]
  by_cases hia : rep i = a
  · simp only [hia, if_true]
    constructor
    · intro h; exact absurd h.2.symm hk
    · intro h; exact absurd h.2.symm ha
  · simp [hia]

theorem fiberCard_add_le (N : Nat) (rep : Nat → Nat) {k a : Nat} (h : k ≠ a) :
    fiberCard N rep k + fiberCard N rep a ≤ N := by
  rw [← fiberCard_merge_kept N rep h]
  exact fiberCard_le _ _ _

/-- Hanging root `a` under root `k` and adding its count to that of `k` keeps the
invariant, for the merged representative map. -/
theorem link_inv {N : Nat} {d : DisjointSetUnion} {rank rep : Nat → Nat}
    (I : Inv N d rank rep) {k a : Nat} (hk : isRoot d k) (ha : isRoot d a) (hka : k ≠ a) :
    Inv N { parent_ := d.parent_.set a k,
            sz_ := d.sz_.set k ((fiberCard N rep k + fiberCard N rep a) % SIZE_MOD) }
      (mergeRank rank k a) (mergeRep rep k a) := by
  obtain ⟨hkN, hrk⟩ := I.rep_root hk
  obtain ⟨haN, hra⟩ := I.rep_root ha
  have halen : a < d.parent_.length := by rw [I.forest.len]; exact haN
  have hklen : k < d.sz_.length := by rw [I.slen]; exact hkN
  have hmod : (fiberCard N rep k + fiberCard N rep a) % SIZE_MOD =
      fiberCard N rep k + fiberCard N rep a :=
    Nat.mod_eq_of_lt (Nat.lt_of_le_of_lt (fiberCard_add_le N rep hka) I.bound)
  refine ⟨I.bound, ⟨by simp [I.forest.len], ?_⟩, by simp [I.slen], ?_⟩
  · intro i hi
    by_cases hia : i = a
    · subst hia
      refine ⟨k, by simp [List.getElem?_set, halen], hkN, ?_, ?_, fun h => absurd h hka⟩
      · intro _
        have h1 : mergeRank rank k i i = rank i := if_neg (Ne.symm hka)
        have h2 : mergeRank rank k i k = max (rank k) (rank i + 1) := if_pos rfl
        rw [h1, h2]
        exact Nat.lt_of_lt_of_le (Nat.lt_succ_self _) (le_max_right _ _)
      · simp [mergeRep, hrk, hra, hka]
    · obtain ⟨p, hp, hpN, h1, h2, h3⟩ := I.forest.link i hi
      refine ⟨p, ?_, hpN, ?_, ?_, ?_⟩
      · rw [List.getElem?_set_ne (Ne.symm hia)]; exact hp
      · intro hpi
        have hik : i ≠ k := by
          intro h
          subst h
          unfold isRoot at hk
          rw [hp] at hk
          exact hpi (Option.some.inj hk)
        have hlt := h1 hpi
        have e1 : mergeRank rank k a i = rank i := if_neg hik
        rw [e1]
        by_cases hpk : p = k
        · have e2 : mergeRank rank k a p = max (rank k) (rank a + 1) := if_pos hpk
          rw [e2]
          rw [hpk] at hlt
          exact Nat.lt_of_lt_of_le hlt (le_max_left _ _)
        · have e2 : mergeRank rank k a p = rank p := if_neg hpk
          rw [e2]
          exact hlt
      · simp [mergeRep, h2]
      · intro hpi
        have := h3 hpi
        simp only [mergeRep, this, if_neg hia]
  · intro r hr hroot
    have hra' : r ≠ a := by
      intro h
      subst h
      simp only [List.getElem?_set, if_pos rfl, halen] at hroot
      exact hka (Option.some.inj hroot)
    have hroot' : d.parent_[r]? = some r := by
      rw [List.getElem?_set_ne (Ne.symm hra')] at hroot
      exact hroot
    by_cases hrk' : r = k
    · subst hrk'
      simp [List.getElem?_set, hklen, hmod, fiberCard_merge_kept N rep hka]
    · simp only [List.getElem?_set_ne (Ne.symm hrk')]
      rw [fiberCard_merge_other N rep hrk' hra']
      exact I.count r hr hroot'

theorem unite_roots_same (d : DisjointSetUnion) {r : Nat} (hr : r < d.size) :
    unite_roots d r r = (Outcome.ok (r, r), d) := by
  simp [unite_roots, rassert, hr]

theorem unite_roots_inv {N : Nat} {d : DisjointSetUnion} {rank rep : Nat → Nat}
    (I : Inv N d rank rep) {ra rb : Nat} (ha : isRoot d ra) (hb : isRoot d rb)
    (hne : ra ≠ rb) :
    ∃ k a d', (k, a) = pickRoots ra rb (fiberCard N rep ra) (fiberCard N rep rb) ∧
      unite_roots d ra rb = (Outcome.ok (k, a), d') ∧
      Inv N d' (mergeRank rank k a) (mergeRep rep k a) ∧ k ≠ a ∧ isRoot d k ∧ isRoot d a := by
  obtain ⟨haN, _⟩ := I.rep_root ha
  obtain ⟨hbN, _⟩ := I.rep_root hb
  have hsa := I.count ra haN ha
  have hsb := I.count rb hbN hb
  by_cases hlt : fiberCard N rep ra < fiberCard N rep rb
  · refine ⟨rb, ra, _, by simp [pickRoots, hlt], ?_, link_inv I hb ha (Ne.symm hne),
      Ne.symm hne, hb, ha⟩
    simp [unite_roots, rassert, I.size_eq, haN, hbN, hne, hsa, hsb, hlt]
  · refine ⟨ra, rb, _, by simp [pickRoots, hlt], ?_, link_inv I ha hb hne, hne, ha, hb⟩
    simp [unite_roots, rassert, I.size_eq, haN, hbN, hne, hsa, hsb, hlt]

theorem unite_inv {N : Nat} {d : DisjointSetUnion} {rank rep : Nat → Nat}
    (I : Inv N d rank rep) {a b : Nat} (ha : a < N) (hb : b < N) :
    ∃ d' rank', unite d a b = (Outcome.ok (decide (rep a ≠ rep b)), d') ∧
      Inv N d' rank' (uniteRep N rep a b) := by
  obtain ⟨d1, e1, I1, _, _⟩ := find_inv I ha
  obtain ⟨d2, e2, I2, _, _⟩ := find_inv I1 hb
  obtain ⟨_, hra, hraN⟩ := find_const_inv I2 ha
  obtain ⟨_, hrb, _⟩ := find_const_inv I2 hb
  by_cases hsame : rep a = rep b
  · refine ⟨d2, rank, ?_, by simpa [uniteRep, hsame] using I2⟩
    have hsz : rep b < d2.size := by rw [I2.size_eq, ← hsame]; exact hraN
    simp [unite, e1, e2, hsame, unite_roots_same d2 hsz]
  · obtain ⟨k, r, d3, hp, e3, I3, hkr, _, _⟩ := unite_roots_inv I2 hra hrb hsame
    refine ⟨d3, mergeRank rank k r, ?_, ?_⟩
    · simp [unite, e1, e2, e3, hsame, hkr]
    · simp only [uniteRep, if_neg hsame, ← hp]
      exact I3

theorem unite_keeps_inv {N : Nat} {d : DisjointSetUnion} {rank rep : Nat → Nat}
    (I : Inv N d rank rep) (a b : Nat) :
    ∃ rank' rep', Inv N (unite d a b).2 rank' rep' := by
  by_cases ha : a < N
  · by_cases hb : b < N
    · obtain ⟨d', rank', e, I'⟩ := unite_inv I ha hb
      exact ⟨rank', _, by rw [e]; exact I'⟩
    · obtain ⟨d1, e1, I1, _, _⟩ := find_inv I ha
      have hb' : ¬ b < d1.size := by rw [I1.size_eq]; exact hb
      refine ⟨rank, rep, ?_⟩
      simp only [unite, e1, find_out_of_range d1 hb']
      exact I1
  · have ha' : ¬ a < d.size := by rw [I.size_eq]; exact ha
    refine ⟨rank, rep, ?_⟩
    simp only [unite, find_out_of_range d ha']
    exact I

theorem construct_inv {N : Nat} (hN : N < SIZE_MOD) :
    Inv N (construct N) (fun _ => 0) (fun i => i) := by
  refine ⟨hN, ⟨by simp [construct_parent], ?_⟩, by simp [construct], ?_⟩
  · intro i hi
    exact ⟨i, by simp [construct_parent, List.getElem?_range, hi], hi,
      fun h => absurd rfl h, rfl, fun _ => rfl⟩
  · intro r hr _
    have : fiberCard N (fun i => i) r = 1 := by
      simp [fiberCard, Finset.filter_eq', hr]
    simp [construct, this, List.getElem?_replicate, hr]

/-- Every reachable state satisfies the invariant, for some rank and representative
map. -/
theorem reachable_inv {N : Nat} {d : DisjointSetUnion} (h : Reachable N d) :
    ∃ rank rep, Inv N d rank rep := by
  induction h with
  | construct hN => exact ⟨_, _, construct_inv hN⟩
  | find d x _ ih =>
    obtain ⟨rank, rep, I⟩ := ih
    by_cases hx : x < N
    · obtain ⟨d', e, I', _⟩ := find_inv I hx
      exact ⟨rank, rep, by rw [e]; exact I'⟩
    · have hx' : ¬ x < d.size := by rw [I.size_eq]; exact hx
      exact ⟨rank, rep, by rw [find_out_of_range d hx']; exact I⟩
  | unite d a b _ ih =>
    obtain ⟨rank, rep, I⟩ := ih
    exact unite_keeps_inv I a b
  | unite_roots d ra rb _ ha hb ih =>
    obtain ⟨rank, rep, I⟩ := ih
    by_cases hne : ra = rb
    · subst hne
      have hr : ra < d.size := by rw [I.size_eq]; exact (I.rep_root ha).1
      exact ⟨rank, rep, by rw [unite_roots_same d hr]; exact I⟩
    · obtain ⟨k, a, d', _, e, I', _⟩ := unite_roots_inv I ha hb hne
      exact ⟨_, _, by rw [e]; exact I'⟩

/-! ## Facts shared by the contract theorems -/

theorem findLoop_root {parent : List Nat} {r : Nat} (h : parent[r]? = some r) (fuel : Nat) :
    findLoop (fuel + 1) parent r = (Outcome.ok r, parent) := by
  simp [findLoop, h]

theorem findConstLoop_root {parent : List Nat} {r : Nat} (h : parent[r]? = some r)
    (fuel : Nat) : findConstLoop parent (fuel + 1) r = Outcome.ok r := by
  simp [findConstLoop, h]

theorem isRoot_lt_size {d : DisjointSetUnion} {r : Nat} (h : isRoot d r) : r < d.size := by
  by_contra hc
  have hn := List.getElem?_eq_none (Nat.le_of_not_lt hc)
  unfold isRoot at h
  rw [hn] at h
  exact Option.noConfusion h

/-- On a root the mutating `find` returns at once and writes nothing. -/
theorem find_root {d : DisjointSetUnion} {r : Nat} (h : isRoot d r) :
    find d r = (Outcome.ok r, d) := by
  have hr := isRoot_lt_size h
  obtain ⟨m, hm⟩ : ∃ m, d.size = m + 1 := ⟨d.size - 1, by omega⟩
  simp only [find, rassert, hr, decide_True, if_true]
  rw [hm, findLoop_root h]

/-- On a root the `const` overload of `find` returns the root. -/
theorem find_const_root {d : DisjointSetUnion} {r : Nat} (h : isRoot d r) :
    find_const d r = Outcome.ok r := by
  have hr := isRoot_lt_size h
  obtain ⟨m, hm⟩ : ∃ m, d.size = m + 1 := ⟨d.size - 1, by omega⟩
  simp only [find_const, rassert, hr, decide_True, if_true]
  rw [hm, findConstLoop_root h]

theorem construct_isRoot {N i : Nat} (hi : i < N) : isRoot (construct N) i := by
  simp [isRoot, construct_parent, List.getElem?_range, hi]

theorem mergeRep_eq_iff (rep : Nat → Nat) {k r : Nat} (x y : Nat) :
    mergeRep rep k r x = mergeRep rep k r y ↔
      (rep x = rep y ∨ (rep x = k ∧ rep y = r) ∨ (rep x = r ∧ rep y = k)) := by
  unfold mergeRep
  split_ifs <;> omega

theorem pickRoots_cases (ra rb sa sb : Nat) :
    pickRoots ra rb sa sb = (ra, rb) ∧ sb ≤ sa ∨ pickRoots ra rb sa sb = (rb, ra) ∧ sa < sb := by
  unfold pickRoots
  by_cases h : sa < sb
  · right; simp [h]
  · left; simp [h]; omega

theorem uniteRep_eq_iff (N : Nat) (rep : Nat → Nat) (a b x y : Nat) :
    uniteRep N rep a b x = uniteRep N rep a b y ↔
      (rep x = rep y ∨ (rep x = rep a ∧ rep y = rep b) ∨ (rep x = rep b ∧ rep y = rep a)) := by
  unfold uniteRep
  by_cases hsame : rep a = rep b
  · simp only [if_pos hsame]
    omega
  · simp only [if_neg hsame]
    rcases pickRoots_cases (rep a) (rep b) (fiberCard N rep (rep a))
      (fiberCard N rep (rep b)) with ⟨e, _⟩ | ⟨e, _⟩
    · rw [e, mergeRep_eq_iff]
    · rw [e, mergeRep_eq_iff]
      omega

theorem uniteRep_other (N : Nat) (rep : Nat → Nat) (a b x : Nat) (h1 : rep x ≠ rep a)
    (h2 : rep x ≠ rep b) : uniteRep N rep a b x = rep x := by
  unfold uniteRep
  by_cases hsame : rep a = rep b
  · simp only [if_pos hsame]
  · simp only [if_neg hsame]
    rcases pickRoots_cases (rep a) (rep b) (fiberCard N rep (rep a))
      (fiberCard N rep (rep b)) with ⟨e, _⟩ | ⟨e, _⟩
    · rw [e]; simp [mergeRep, h2]
    · rw [e]; simp [mergeRep, h1]

theorem fiberCard_uniteRep_other (N : Nat) (rep : Nat → Nat) (a b r : Nat) (h1 : r ≠ rep a)
    (h2 : r ≠ rep b) : fiberCard N (uniteRep N rep a b) r = fiberCard N rep r := by
  unfold uniteRep
  by_cases hsame : rep a = rep b
  · simp only [if_pos hsame]
  · simp only [if_neg hsame]
    rcases pickRoots_cases (rep a) (rep b) (fiberCard N rep (rep a))
      (fiberCard N rep (rep b)) with ⟨e, _⟩ | ⟨e, _⟩
    · rw [e]; exact fiberCard_merge_other N rep h1 h2
    · rw [e]; exact fiberCard_merge_other N rep h2 h1

/-- The fibres of the representative map are the fibres of the `const` `find`. -/
theorem fiberCard_eq_find_const {N : Nat} {d : DisjointSetUnion} {rank rep : Nat → Nat}
    (I : Inv N d rank rep) (r : Nat) :
    fiberCard N rep r =
      ((Finset.range N).filter (fun i => find_const d i = Outcome.ok r)).card := by
  unfold fiberCard
  congr 1
  apply Finset.filter_congr
  intro i hi
  rw [(find_const_inv I (Finset.mem_range.1 hi)).1]
  constructor
  · intro h; rw [h]
  · intro h; exact Outcome.ok.inj h

/-- In a state with the invariant the mutating `find` returns the representative and
keeps the invariant, for the same rank and representative map. -/
theorem find_fst_inv {N : Nat} {d : DisjointSetUnion} {rank rep : Nat → Nat}
    (I : Inv N d rank rep) {x : Nat} (hx : x < N) :
    (find d x).1 = Outcome.ok (rep x) ∧ Inv N (find d x).2 rank rep := by
  obtain ⟨d', e, I', _⟩ := find_inv I hx
  rw [e]
  exact ⟨rfl, I'⟩

theorem fiberCard_eq_find {N : Nat} {d : DisjointSetUnion} {rank rep : Nat → Nat}
    (I : Inv N d rank rep) (r : Nat) :
    fiberCard N rep r =
      ((Finset.range N).filter (fun i => (find d i).1 = Outcome.ok r)).card := by
  unfold fiberCard
  congr 1
  apply Finset.filter_congr
  intro i hi
  rw [(find_fst_inv I (Finset.mem_range.1 hi)).1]
  constructor
  · intro h; rw [h]
  · intro h; exact Outcome.ok.inj h

theorem sum_fiberCard_roots {N : Nat} {d : DisjointSetUnion} {rank rep : Nat → Nat}
    (I : Inv N d rank rep) :
    (∑ r in (Finset.range N).filter (fun r => isRoot d r), fiberCard N rep r) = N := by
  have hmaps : ∀ i ∈ Finset.range N,
      rep i ∈ (Finset.range N).filter (fun r => isRoot d r) := by
    intro i hi
    obtain ⟨_, hroot, hlt⟩ := find_const_inv I (Finset.mem_range.1 hi)
    exact Finset.mem_filter.2 ⟨Finset.mem_range.2 hlt, hroot⟩
  have := Finset.card_eq_sum_card_fiberwise hmaps
  rw [Finset.card_range] at this
  exact this.symm

theorem uniteRep_merged (N : Nat) (rep : Nat → Nat) (a b : Nat) (hne : rep a ≠ rep b) :
    uniteRep N rep a b a =
        (if fiberCard N rep (rep a) < fiberCard N rep (rep b) then rep b else rep a) ∧
      uniteRep N rep a b b =
        (if fiberCard N rep (rep a) < fiberCard N rep (rep b) then rep b else rep a) := by
  unfold uniteRep pickRoots mergeRep
  simp only [if_neg hne]
  by_cases hlt : fiberCard N rep (rep a) < fiberCard N rep (rep b)
  · simp [hlt, hne, Ne.symm hne]
  · simp [hlt, hne, Ne.symm hne]

/-! ## The contract -/

/-- C1: in the structure produced by `construct N`, `size()` is `N` and, for every index
`i < N`, the mutating `find(i)` returns `i` (and writes nothing), the `const` `find(i)`
returns `i`, and `set_size(i)` is 1. -/
theorem C1_construct_initial_state (N i : Nat) (hi : i < N) :
    (construct N).size = N ∧
      find (construct N) i = (Outcome.ok i, construct N) ∧
      find_const (construct N) i = Outcome.ok i ∧
      set_size (construct N) i = Outcome.ok 1 := by
  have hroot : isRoot (construct N) i := construct_isRoot hi
  refine ⟨construct_size N, find_root hroot, find_const_root hroot, ?_⟩
  have hsz : (construct N).sz_[i]? = some 1 := by
    simp [construct, List.getElem?_replicate, hi]
  simp only [set_size, find_const_root hroot, hsz]

/-- Witness of C1 at `N = 5`, `i = 3`. -/
theorem C1_construct_initial_state_witness :
    (3 < 5) ∧ (construct 5).size = 5 ∧
      find (construct 5) 3 = (Outcome.ok 3, construct 5) ∧
      find_const (construct 5) 3 = Outcome.ok 3 ∧
      set_size (construct 5) 3 = Outcome.ok 1 :=
  ⟨by decide, C1_construct_initial_state 5 3 (by decide)⟩

/-- C2: in a reachable state, for `a, b < N`, `unite(a, b)` returns a boolean, which is
`false` exactly when `find(a) = find(b)` held before the call (for the `const` find and
for the mutating finds run one after the other); after the call `a` and `b` have the
same root, whatever was returned; and `unite(a, a)` returns `false`. -/
theorem C2_unite_false_iff_same_root (N : Nat) (d : DisjointSetUnion) (a b : Nat)
    (h : Reachable N d) (ha : a < N) (hb : b < N) :
    ∃ ra rb merged r',
      find_const d a = Outcome.ok ra ∧ find_const d b = Outcome.ok rb ∧
      (find d a).1 = Outcome.ok ra ∧ (find (find d a).2 b).1 = Outcome.ok rb ∧
      (unite d a b).1 = Outcome.ok merged ∧
      (merged = false ↔ ra = rb) ∧
      find_const (unite d a b).2 a = Outcome.ok r' ∧
      find_const (unite d a b).2 b = Outcome.ok r' ∧
      (find (unite d a b).2 a).1 = Outcome.ok r' ∧
      (find (find (unite d a b).2 a).2 b).1 = Outcome.ok r' ∧
      (unite d a a).1 = Outcome.ok false := by
  obtain ⟨rank, rep, I⟩ := reachable_inv h
  obtain ⟨d1, e1, I1, _, _⟩ := find_inv I ha
  obtain ⟨d2, e2, _⟩ := find_inv I1 hb
  obtain ⟨d', rank', eu, I'⟩ := unite_inv I ha hb
  obtain ⟨d3, e3, I3, _, _⟩ := find_inv I' ha
  obtain ⟨d4, e4, _⟩ := find_inv I3 hb
  obtain ⟨d5, rank5, eaa, _⟩ := unite_inv I ha ha
  have hab : uniteRep N rep a b a = uniteRep N rep a b b := by
    rw [uniteRep_eq_iff]; omega
  refine ⟨rep a, rep b, decide (rep a ≠ rep b), uniteRep N rep a b a,
    (find_const_inv I ha).1, (find_const_inv I hb).1, by rw [e1], by rw [e1, e2],
    by rw [eu], by simp, ?_, ?_, ?_, ?_, by rw [eaa]; simp⟩
  · rw [eu]; exact (find_const_inv I' ha).1
  · rw [eu, hab]; exact (find_const_inv I' hb).1
  · rw [eu, e3]
  · rw [eu, e3, e4, hab]

/-- Witness of C2: `N = 4`, the state after `unite(0, 1)`, and the call `unite(2, 1)`. -/
theorem C2_unite_false_iff_same_root_witness :
    Reachable 4 (unite (construct 4) 0 1).2 ∧ 2 < 4 ∧ 1 < 4 ∧
    ∃ ra rb merged r',
      find_const (unite (construct 4) 0 1).2 2 = Outcome.ok ra ∧
      find_const (unite (construct 4) 0 1).2 1 = Outcome.ok rb ∧
      (find (unite (construct 4) 0 1).2 2).1 = Outcome.ok ra ∧
      (find (find (unite (construct 4) 0 1).2 2).2 1).1 = Outcome.ok rb ∧
      (unite (unite (construct 4) 0 1).2 2 1).1 = Outcome.ok merged ∧
      (merged = false ↔ ra = rb) ∧
      find_const (unite (unite (construct 4) 0 1).2 2 1).2 2 = Outcome.ok r' ∧
      find_const (unite (unite (construct 4) 0 1).2 2 1).2 1 = Outcome.ok r' ∧
      (find (unite (unite (construct 4) 0 1).2 2 1).2 2).1 = Outcome.ok r' ∧
      (find (find (unite (unite (construct 4) 0 1).2 2 1).2 2).2 1).1 = Outcome.ok r' ∧
      (unite (unite (construct 4) 0 1).2 2 2).1 = Outcome.ok false :=
  ⟨Reachable.unite _ 0 1 (Reachable.construct (by decide)), by decide, by decide,
    C2_unite_false_iff_same_root 4 (unite (construct 4) 0 1).2 2 1
      (Reachable.unite _ 0 1 (Reachable.construct (by decide))) (by decide) (by decide)⟩

/-- C3: in a reachable state, for `a, b, x, y < N`: after `unite(a, b)` the elements `x`
and `y` have the same root exactly when before the call they had the same root, or one
was in the set of `a` and the other in the set of `b`.  An element whose set is neither
that of `a` nor that of `b` keeps its root and its `set_size`. -/
theorem C3_unite_merges_exactly_two_sets (N : Nat) (d : DisjointSetUnion) (a b x y : Nat)
    (h : Reachable N d) (ha : a < N) (hb : b < N) (hx : x < N) (hy : y < N) :
    ∃ ra rb rx ry rx' ry' s,
      find_const d a = Outcome.ok ra ∧ find_const d b = Outcome.ok rb ∧
      find_const d x = Outcome.ok rx ∧ find_const d y = Outcome.ok ry ∧
      find_const (unite d a b).2 x = Outcome.ok rx' ∧
      find_const (unite d a b).2 y = Outcome.ok ry' ∧
      (rx' = ry' ↔ (rx = ry ∨ (rx = ra ∧ ry = rb) ∨ (rx = rb ∧ ry = ra))) ∧
      set_size d x = Outcome.ok s ∧
      (rx ≠ ra → rx ≠ rb → rx' = rx ∧ set_size (unite d a b).2 x = Outcome.ok s) := by
  obtain ⟨rank, rep, I⟩ := reachable_inv h
  obtain ⟨d', rank', eu, I'⟩ := unite_inv I ha hb
  refine ⟨rep a, rep b, rep x, rep y, uniteRep N rep a b x, uniteRep N rep a b y,
    fiberCard N rep (rep x), (find_const_inv I ha).1, (find_const_inv I hb).1,
    (find_const_inv I hx).1, (find_const_inv I hy).1, ?_, ?_, uniteRep_eq_iff N rep a b x y,
    set_size_inv I hx, ?_⟩
  · rw [eu]; exact (find_const_inv I' hx).1
  · rw [eu]; exact (find_const_inv I' hy).1
  · intro h1 h2
    have e := uniteRep_other N rep a b x h1 h2
    refine ⟨e, ?_⟩
    rw [eu, set_size_inv I' hx, e, fiberCard_uniteRep_other N rep a b (rep x) h1 h2]

/-- Witness of C3: `N = 4`, the state after `unite(0, 1)`, the call `unite(2, 1)`, and
the elements `0` and `3`. -/
theorem C3_unite_merges_exactly_two_sets_witness :
    Reachable 4 (unite (construct 4) 0 1).2 ∧ 2 < 4 ∧ 1 < 4 ∧ 0 < 4 ∧ 3 < 4 ∧
    ∃ ra rb rx ry rx' ry' s,
      find_const (unite (construct 4) 0 1).2 2 = Outcome.ok ra ∧
      find_const (unite (construct 4) 0 1).2 1 = Outcome.ok rb ∧
      find_const (unite (construct 4) 0 1).2 0 = Outcome.ok rx ∧
      find_const (unite (construct 4) 0 1).2 3 = Outcome.ok ry ∧
      find_const (unite (unite (construct 4) 0 1).2 2 1).2 0 = Outcome.ok rx' ∧
      find_const (unite (unite (construct 4) 0 1).2 2 1).2 3 = Outcome.ok ry' ∧
      (rx' = ry' ↔ (rx = ry ∨ (rx = ra ∧ ry = rb) ∨ (rx = rb ∧ ry = ra))) ∧
      set_size (unite (construct 4) 0 1).2 0 = Outcome.ok s ∧
      (rx ≠ ra → rx ≠ rb →
        rx' = rx ∧ set_size (unite (unite (construct 4) 0 1).2 2 1).2 0 = Outcome.ok s) :=
  ⟨Reachable.unite _ 0 1 (Reachable.construct (by decide)), by decide, by decide, by decide,
    by decide,
    C3_unite_merges_exactly_two_sets 4 (unite (construct 4) 0 1).2 2 1 0 3
      (Reachable.unite _ 0 1 (Reachable.construct (by decide)))
      (by decide) (by decide) (by decide) (by decide)⟩

/-- C4: in a reachable state every root `r` stores in `sz_[r]` the number of indices
`i < N` whose find-result is `r` (counted with the `const` find and with the mutating
find), and for every `x < N`, `set_size(x)` is the number of indices in the set of `x`. -/
theorem C4_root_size_counts_its_set (N : Nat) (d : DisjointSetUnion) (h : Reachable N d) :
    (∀ r, isRoot d r →
      d.sz_[r]? = some ((Finset.range N).filter
          (fun i => find_const d i = Outcome.ok r)).card ∧
      d.sz_[r]? = some ((Finset.range N).filter
          (fun i => (find d i).1 = Outcome.ok r)).card) ∧
    (∀ x, x < N → ∃ r, find_const d x = Outcome.ok r ∧
      set_size d x = Outcome.ok ((Finset.range N).filter
          (fun i => find_const d i = Outcome.ok r)).card) := by
  obtain ⟨rank, rep, I⟩ := reachable_inv h
  constructor
  · intro r hr
    have hc := I.count r (I.rep_root hr).1 hr
    exact ⟨by rw [hc, fiberCard_eq_find_const I], by rw [hc, fiberCard_eq_find I]⟩
  · intro x hx
    exact ⟨rep x, (find_const_inv I hx).1, by rw [set_size_inv I hx, fiberCard_eq_find_const I]⟩

/-- Witness of C4: `N = 4`, the state after `unite(0, 1)`. -/
theorem C4_root_size_counts_its_set_witness :
    Reachable 4 (unite (construct 4) 0 1).2 ∧
    (∀ r, isRoot (unite (construct 4) 0 1).2 r →
      (unite (construct 4) 0 1).2.sz_[r]? = some ((Finset.range 4).filter
          (fun i => find_const (unite (construct 4) 0 1).2 i = Outcome.ok r)).card ∧
      (unite (construct 4) 0 1).2.sz_[r]? = some ((Finset.range 4).filter
          (fun i => (find (unite (construct 4) 0 1).2 i).1 = Outcome.ok r)).card) ∧
    (∀ x, x < 4 → ∃ r, find_const (unite (construct 4) 0 1).2 x = Outcome.ok r ∧
      set_size (unite (construct 4) 0 1).2 x = Outcome.ok ((Finset.range 4).filter
          (fun i => find_const (unite (construct 4) 0 1).2 i = Outcome.ok r)).card) :=
  ⟨(Reachable.unite _ 0 1 (Reachable.construct (by decide))), C4_root_size_counts_its_set 4 (unite (construct 4) 0 1).2 (Reachable.unite _ 0 1 (Reachable.construct (by decide)))⟩

/-- C5: in a reachable state the sum of `sz_[r]` over the current roots `r` is `N`, and
at a root `set_size(r)` is `sz_[r]`, so the sum of `set_size(r)` over the roots is `N`
as well. -/
theorem C5_root_sizes_sum_to_N (N : Nat) (d : DisjointSetUnion) (h : Reachable N d) :
    (∑ r in (Finset.range N).filter (fun r => isRoot d r), d.sz_.getD r 0) = N ∧
    (∀ r, isRoot d r → d.sz_[r]? = some (d.sz_.getD r 0) ∧
      set_size d r = Outcome.ok (d.sz_.getD r 0)) := by
  obtain ⟨rank, rep, I⟩ := reachable_inv h
  have hget : ∀ r, isRoot d r → d.sz_.getD r 0 = fiberCard N rep r := by
    intro r hr
    have hc := I.count r (I.rep_root hr).1 hr
    simp [List.getD_eq_getElem?_getD, hc]
  constructor
  · refine Eq.trans (Finset.sum_congr rfl ?_) (sum_fiberCard_roots I)
    intro r hr
    exact hget r (Finset.mem_filter.1 hr).2
  · intro r hr
    obtain ⟨hrN, hrep⟩ := I.rep_root hr
    have hc := I.count r hrN hr
    refine ⟨by rw [hget r hr, hc], ?_⟩
    rw [set_size_inv I hrN, hrep, hget r hr]

/-- Witness of C5: `N = 4`, the state after `unite(0, 1)`. -/
theorem C5_root_sizes_sum_to_N_witness :
    Reachable 4 (unite (construct 4) 0 1).2 ∧
    (∑ r in (Finset.range 4).filter (fun r => isRoot (unite (construct 4) 0 1).2 r), (unite (construct 4) 0 1).2.sz_.getD r 0) = 4 ∧
    (∀ r, isRoot (unite (construct 4) 0 1).2 r → (unite (construct 4) 0 1).2.sz_[r]? = some ((unite (construct 4) 0 1).2.sz_.getD r 0) ∧
      set_size (unite (construct 4) 0 1).2 r = Outcome.ok ((unite (construct 4) 0 1).2.sz_.getD r 0)) :=
  ⟨(Reachable.unite _ 0 1 (Reachable.construct (by decide))), C5_root_sizes_sum_to_N 4 (unite (construct 4) 0 1).2 (Reachable.unite _ 0 1 (Reachable.construct (by decide)))⟩

/-- C6: in a reachable state, for `x < N`, the mutating `find(x)` returns a root of the
state it leaves, and a second mutating `find` on that root returns it again and writes
nothing; the `const` `find(x)` returns a root `r`, and the `const` `find(r)` is `r`. -/
theorem C6_find_is_idempotent (N : Nat) (d : DisjointSetUnion) (x : Nat)
    (h : Reachable N d) (hx : x < N) :
    ∃ r, (find d x).1 = Outcome.ok r ∧ isRoot (find d x).2 r ∧
      find (find d x).2 r = (Outcome.ok r, (find d x).2) ∧
      find_const d x = Outcome.ok r ∧ isRoot d r ∧ find_const d r = Outcome.ok r := by
  obtain ⟨rank, rep, I⟩ := reachable_inv h
  obtain ⟨d', e, I', _, hroots⟩ := find_inv I hx
  obtain ⟨ec, hroot, _⟩ := find_const_inv I hx
  have hroot' : isRoot d' (rep x) := (hroots _).2 hroot
  refine ⟨rep x, by rw [e], by rw [e]; exact hroot', ?_, ec, hroot, find_const_root hroot⟩
  rw [e]
  exact find_root hroot'

/-- Witness of C6: `N = 4`, the state after `unite(0, 1)`, and `x = 1`. -/
theorem C6_find_is_idempotent_witness :
    Reachable 4 (unite (construct 4) 0 1).2 ∧ 1 < 4 ∧
    ∃ r, (find (unite (construct 4) 0 1).2 1).1 = Outcome.ok r ∧ isRoot (find (unite (construct 4) 0 1).2 1).2 r ∧
      find (find (unite (construct 4) 0 1).2 1).2 r = (Outcome.ok r, (find (unite (construct 4) 0 1).2 1).2) ∧
      find_const (unite (construct 4) 0 1).2 1 = Outcome.ok r ∧ isRoot (unite (construct 4) 0 1).2 r ∧ find_const (unite (construct 4) 0 1).2 r = Outcome.ok r :=
  ⟨(Reachable.unite _ 0 1 (Reachable.construct (by decide))), by decide, C6_find_is_idempotent 4 (unite (construct 4) 0 1).2 1 (Reachable.unite _ 0 1 (Reachable.construct (by decide))) (by decide)⟩

/-- C7: in a reachable state, for `x < N`, the mutating `find(x)` and the `const`
`find(x)`, both run on that state, return the same root. -/
theorem C7_find_variants_agree (N : Nat) (d : DisjointSetUnion) (x : Nat)
    (h : Reachable N d) (hx : x < N) :
    ∃ r, (find d x).1 = Outcome.ok r ∧ find_const d x = Outcome.ok r := by
  obtain ⟨rank, rep, I⟩ := reachable_inv h
  exact ⟨rep x, (find_fst_inv I hx).1, (find_const_inv I hx).1⟩

/-- Witness of C7: `N = 4`, the state after `unite(0, 1)`, and `x = 1`. -/
theorem C7_find_variants_agree_witness :
    Reachable 4 (unite (construct 4) 0 1).2 ∧ 1 < 4 ∧
    ∃ r, (find (unite (construct 4) 0 1).2 1).1 = Outcome.ok r ∧ find_const (unite (construct 4) 0 1).2 1 = Outcome.ok r :=
  ⟨(Reachable.unite _ 0 1 (Reachable.construct (by decide))), by decide, C7_find_variants_agree 4 (unite (construct 4) 0 1).2 1 (Reachable.unite _ 0 1 (Reachable.construct (by decide))) (by decide)⟩

/-- C8: in a reachable state, for two distinct roots `ra`, `rb`, `unite_roots(ra, rb)`
returns a pair `(kept, absorbed)` that is `(ra, rb)` or `(rb, ra)`; afterwards
`find(kept) = kept` and `find(absorbed) = kept` (both variants), so
`find(ra) = find(rb)`, and `set_size(kept)` is the sum of the two set sizes before the
call. -/
theorem C8_unite_roots_pair_and_sizes (N : Nat) (d : DisjointSetUnion) (ra rb : Nat)
    (h : Reachable N d) (ha : isRoot d ra) (hb : isRoot d rb) (hne : ra ≠ rb) :
    ∃ kept absorbed sa sb,
      (unite_roots d ra rb).1 = Outcome.ok (kept, absorbed) ∧
      ((kept, absorbed) = (ra, rb) ∨ (kept, absorbed) = (rb, ra)) ∧
      find_const (unite_roots d ra rb).2 kept = Outcome.ok kept ∧
      find_const (unite_roots d ra rb).2 absorbed = Outcome.ok kept ∧
      (find (unite_roots d ra rb).2 kept).1 = Outcome.ok kept ∧
      (find (unite_roots d ra rb).2 absorbed).1 = Outcome.ok kept ∧
      find_const (unite_roots d ra rb).2 ra = find_const (unite_roots d ra rb).2 rb ∧
      set_size d ra = Outcome.ok sa ∧ set_size d rb = Outcome.ok sb ∧
      set_size (unite_roots d ra rb).2 kept = Outcome.ok (sa + sb) := by
  obtain ⟨rank, rep, I⟩ := reachable_inv h
  obtain ⟨haN, hra⟩ := I.rep_root ha
  obtain ⟨hbN, hrb⟩ := I.rep_root hb
  obtain ⟨k, a, d', hp, e, I', hka, hk, hab⟩ := unite_roots_inv I ha hb hne
  obtain ⟨hkN, hrk⟩ := I.rep_root hk
  obtain ⟨haN', hra'⟩ := I.rep_root hab
  have hmk : mergeRep rep k a k = k := by simp [mergeRep, hrk, hka]
  have hma : mergeRep rep k a a = k := by simp [mergeRep, hra']
  have hfk := (find_const_inv I' hkN).1
  have hfa := (find_const_inv I' haN').1
  rw [hmk] at hfk
  rw [hma] at hfa
  have hmk' := (find_fst_inv I' hkN).1
  have hma' := (find_fst_inv I' haN').1
  rw [hmk] at hmk'
  rw [hma] at hma'
  have hsk := set_size_inv I' hkN
  rw [hmk, fiberCard_merge_kept N rep hka] at hsk
  have hsa := set_size_inv I haN
  have hsb := set_size_inv I hbN
  rw [hra] at hsa
  rw [hrb] at hsb
  have hor : (k, a) = (ra, rb) ∨ (k, a) = (rb, ra) := by
    rcases pickRoots_cases ra rb (fiberCard N rep ra) (fiberCard N rep rb) with
      ⟨e1, _⟩ | ⟨e1, _⟩
    · left; rw [hp, e1]
    · right; rw [hp, e1]
  refine ⟨k, a, fiberCard N rep ra, fiberCard N rep rb, by rw [e], hor, by rw [e]; exact hfk,
    by rw [e]; exact hfa, by rw [e]; exact hmk', by rw [e]; exact hma', ?_, hsa, hsb, ?_⟩
  · rw [e]
    rcases hor with h1 | h1
    · obtain ⟨h2, h3⟩ := Prod.mk.inj h1
      rw [← h2, ← h3, hfk, hfa]
    · obtain ⟨h2, h3⟩ := Prod.mk.inj h1
      rw [← h2, ← h3, hfk, hfa]
  · rw [e, hsk]
    rcases hor with h1 | h1
    · obtain ⟨h2, h3⟩ := Prod.mk.inj h1
      rw [h2, h3]
    · obtain ⟨h2, h3⟩ := Prod.mk.inj h1
      rw [h2, h3, Nat.add_comm]

/-- Witness of C8: `N = 4`, the state after `unite(0, 1)`, and the roots `2` and `0`. -/
theorem C8_unite_roots_pair_and_sizes_witness :
    Reachable 4 (unite (construct 4) 0 1).2 ∧ isRoot (unite (construct 4) 0 1).2 2 ∧ isRoot (unite (construct 4) 0 1).2 0 ∧ 2 ≠ 0 ∧
    ∃ kept absorbed sa sb,
      (unite_roots (unite (construct 4) 0 1).2 2 0).1 = Outcome.ok (kept, absorbed) ∧
      ((kept, absorbed) = (2, 0) ∨ (kept, absorbed) = (0, 2)) ∧
      find_const (unite_roots (unite (construct 4) 0 1).2 2 0).2 kept = Outcome.ok kept ∧
      find_const (unite_roots (unite (construct 4) 0 1).2 2 0).2 absorbed = Outcome.ok kept ∧
      (find (unite_roots (unite (construct 4) 0 1).2 2 0).2 kept).1 = Outcome.ok kept ∧
      (find (unite_roots (unite (construct 4) 0 1).2 2 0).2 absorbed).1 = Outcome.ok kept ∧
      find_const (unite_roots (unite (construct 4) 0 1).2 2 0).2 2 = find_const (unite_roots (unite (construct 4) 0 1).2 2 0).2 0 ∧
      set_size (unite (construct 4) 0 1).2 2 = Outcome.ok sa ∧ set_size (unite (construct 4) 0 1).2 0 = Outcome.ok sb ∧
      set_size (unite_roots (unite (construct 4) 0 1).2 2 0).2 kept = Outcome.ok (sa + sb) :=
  ⟨(Reachable.unite _ 0 1 (Reachable.construct (by decide))), by decide, by decide, by decide,
    C8_unite_roots_pair_and_sizes 4 (unite (construct 4) 0 1).2 2 0 (Reachable.unite _ 0 1 (Reachable.construct (by decide))) (by decide) (by decide) (by decide)⟩

/-- C9: in every state, for `r < size()`, `unite_roots(r, r)` returns `(r, r)` and leaves
the parent vector and the size vector exactly as they were. -/
theorem C9_unite_roots_same_root_is_noop (d : DisjointSetUnion) (r : Nat) (hr : r < d.size) :
    (unite_roots d r r).1 = Outcome.ok (r, r) ∧
      (unite_roots d r r).2.parent_ = d.parent_ ∧ (unite_roots d r r).2.sz_ = d.sz_ := by
  simp [unite_roots, rassert, hr]

/-- Witness of C9: the state with parents `[1, 1, 0]` and sizes `[7, 0, 5]`, which no
sequence of calls produces, and `r = 2`. -/
theorem C9_unite_roots_same_root_is_noop_witness :
    2 < (DisjointSetUnion.mk [1, 1, 0] [7, 0, 5]).size ∧
    (unite_roots (DisjointSetUnion.mk [1, 1, 0] [7, 0, 5]) 2 2).1 = Outcome.ok (2, 2) ∧
      (unite_roots (DisjointSetUnion.mk [1, 1, 0] [7, 0, 5]) 2 2).2.parent_ = [1, 1, 0] ∧
      (unite_roots (DisjointSetUnion.mk [1, 1, 0] [7, 0, 5]) 2 2).2.sz_ = [7, 0, 5] :=
  ⟨by decide, C9_unite_roots_same_root_is_noop (DisjointSetUnion.mk [1, 1, 0] [7, 0, 5]) 2
    (by decide)⟩

/-- C10: union by size with tie-breaking.  In a reachable state, for distinct roots
`ra`, `rb` with stored sizes `sa`, `sb`: `unite_roots(ra, rb)` returns `(ra, rb)` when
`sa >= sb` and `(rb, ra)` when `sa < sb`, and only then.  For `a, b < N` in different
sets, `unite(a, b)` merges and the new common root is the old `find(a)`, unless the set
of `b` was strictly larger than that of `a`, in which case it is the old `find(b)`. -/
theorem C10_union_by_size_tie_break (N : Nat) (d : DisjointSetUnion) (ra rb a b : Nat)
    (h : Reachable N d) (hra : isRoot d ra) (hrb : isRoot d rb) (hne : ra ≠ rb)
    (ha : a < N) (hb : b < N) :
    (∃ sa sb, d.sz_[ra]? = some sa ∧ d.sz_[rb]? = some sb ∧
      (sb ≤ sa → (unite_roots d ra rb).1 = Outcome.ok (ra, rb)) ∧
      (sa < sb → (unite_roots d ra rb).1 = Outcome.ok (rb, ra)) ∧
      ((unite_roots d ra rb).1 = Outcome.ok (rb, ra) → sa < sb)) ∧
    (∃ fa fb na nb, find_const d a = Outcome.ok fa ∧ find_const d b = Outcome.ok fb ∧
      set_size d a = Outcome.ok na ∧ set_size d b = Outcome.ok nb ∧
      (fa ≠ fb → (unite d a b).1 = Outcome.ok true ∧
        find_const (unite d a b).2 a = Outcome.ok (if na < nb then fb else fa) ∧
        find_const (unite d a b).2 b = Outcome.ok (if na < nb then fb else fa))) := by
  obtain ⟨rank, rep, I⟩ := reachable_inv h
  constructor
  · obtain ⟨haN, _⟩ := I.rep_root hra
    obtain ⟨hbN, _⟩ := I.rep_root hrb
    obtain ⟨k, r, d', hp, e, _⟩ := unite_roots_inv I hra hrb hne
    refine ⟨fiberCard N rep ra, fiberCard N rep rb, I.count ra haN hra, I.count rb hbN hrb,
      ?_, ?_, ?_⟩
    · intro hle
      rw [e, hp, pickRoots, if_neg (Nat.not_lt.2 hle)]
    · intro hlt
      rw [e, hp, pickRoots, if_pos hlt]
    · intro hres
      by_contra hlt
      rw [e, hp, pickRoots, if_neg hlt] at hres
      exact hne (Prod.mk.inj (Outcome.ok.inj hres)).1
  · obtain ⟨d', rank', eu, I'⟩ := unite_inv I ha hb
    refine ⟨rep a, rep b, fiberCard N rep (rep a), fiberCard N rep (rep b),
      (find_const_inv I ha).1, (find_const_inv I hb).1, set_size_inv I ha, set_size_inv I hb, ?_⟩
    intro hdiff
    obtain ⟨e1, e2⟩ := uniteRep_merged N rep a b hdiff
    refine ⟨by rw [eu]; simp [hdiff], ?_, ?_⟩
    · rw [eu, (find_const_inv I' ha).1, e1]
    · rw [eu, (find_const_inv I' hb).1, e2]

/-- Witness of C10: `N = 4`, the state after `unite(0, 1)`, the roots `2` and `0`, and the
elements `3` and `1`. -/
theorem C10_union_by_size_tie_break_witness :
    Reachable 4 (unite (construct 4) 0 1).2 ∧ isRoot (unite (construct 4) 0 1).2 2 ∧ isRoot (unite (construct 4) 0 1).2 0 ∧ 2 ≠ 0 ∧ 3 < 4 ∧ 1 < 4 ∧
    (∃ sa sb, (unite (construct 4) 0 1).2.sz_[2]? = some sa ∧ (unite (construct 4) 0 1).2.sz_[0]? = some sb ∧
      (sb ≤ sa → (unite_roots (unite (construct 4) 0 1).2 2 0).1 = Outcome.ok (2, 0)) ∧
      (sa < sb → (unite_roots (unite (construct 4) 0 1).2 2 0).1 = Outcome.ok (0, 2)) ∧
      ((unite_roots (unite (construct 4) 0 1).2 2 0).1 = Outcome.ok (0, 2) → sa < sb)) ∧
    (∃ fa fb na nb, find_const (unite (construct 4) 0 1).2 3 = Outcome.ok fa ∧ find_const (unite (construct 4) 0 1).2 1 = Outcome.ok fb ∧
      set_size (unite (construct 4) 0 1).2 3 = Outcome.ok na ∧ set_size (unite (construct 4) 0 1).2 1 = Outcome.ok nb ∧
      (fa ≠ fb → (unite (unite (construct 4) 0 1).2 3 1).1 = Outcome.ok true ∧
        find_const (unite (unite (construct 4) 0 1).2 3 1).2 3 = Outcome.ok (if na < nb then fb else fa) ∧
        find_const (unite (unite (construct 4) 0 1).2 3 1).2 1 = Outcome.ok (if na < nb then fb else fa))) :=
  ⟨(Reachable.unite _ 0 1 (Reachable.construct (by decide))), by decide, by decide, by decide, by decide, by decide,
    C10_union_by_size_tie_break 4 (unite (construct 4) 0 1).2 2 0 3 1 (Reachable.unite _ 0 1 (Reachable.construct (by decide))) (by decide) (by decide) (by decide)
      (by decide) (by decide)⟩

/-! ## Failures -/

theorem find_const_out_of_range (d : DisjointSetUnion) {x : Nat} (hx : ¬ x < d.size) :
    find_const d x = Outcome.fail (Failure.assertion_error 2391578193412 x d.size) := by
  simp [find_const, rassert, hx]

theorem set_size_out_of_range (d : DisjointSetUnion) {x : Nat} (hx : ¬ x < d.size) :
    set_size d x = Outcome.fail (Failure.assertion_error 2391578193412 x d.size) := by
  simp [set_size, find_const_out_of_range d hx]

theorem unite_roots_out_of_range_left (d : DisjointSetUnion) {ra : Nat} (rb : Nat)
    (h : ¬ ra < d.size) :
    unite_roots d ra rb = (Outcome.fail (Failure.assertion_error 2391578193413 ra d.size), d) := by
  simp [unite_roots, rassert, h]

theorem unite_roots_out_of_range_right (d : DisjointSetUnion) {ra rb : Nat}
    (ha : ra < d.size) (h : ¬ rb < d.size) :
    unite_roots d ra rb = (Outcome.fail (Failure.assertion_error 2391578193414 rb d.size), d) := by
  simp [unite_roots, rassert, ha, h]

/-- With both indices in range and the size vector as long as the parent vector,
`unite_roots` returns a pair, whether or not the indices are roots. -/
theorem unite_roots_in_range_ok (d : DisjointSetUnion) {ra rb : Nat}
    (hlen : d.sz_.length = d.parent_.length) (ha : ra < d.size) (hb : rb < d.size) :
    ∃ pr, (unite_roots d ra rb).1 = Outcome.ok pr := by
  have ha' : ra < d.sz_.length := by rw [hlen]; exact ha
  have hb' : rb < d.sz_.length := by rw [hlen]; exact hb
  by_cases hab : ra = rb
  · exact ⟨(ra, ra), by simp [unite_roots, rassert, ha, hb, hab]⟩
  · by_cases hlt : d.sz_[ra] < d.sz_[rb]
    · exact ⟨(rb, ra), by
        simp [unite_roots, rassert, ha, hb, hab, List.getElem?_eq_getElem ha',
          List.getElem?_eq_getElem hb', hlt]⟩
    · exact ⟨(ra, rb), by
        simp [unite_roots, rassert, ha, hb, hab, List.getElem?_eq_getElem ha',
          List.getElem?_eq_getElem hb', hlt]⟩

theorem unite_out_of_range_left (d : DisjointSetUnion) {a : Nat} (b : Nat)
    (h : ¬ a < d.size) :
    unite d a b = (Outcome.fail (Failure.assertion_error 2391578193411 a d.size), d) := by
  simp only [unite, find_out_of_range d h]

theorem unite_out_of_range_right {N : Nat} {d : DisjointSetUnion} {rank rep : Nat → Nat}
    (I : Inv N d rank rep) {a b : Nat} (ha : a < N) (hb : ¬ b < N) :
    unite d a b = (Outcome.fail (Failure.assertion_error 2391578193411 b N), (find d a).2) ∧
      Inv N (find d a).2 rank rep ∧ (find d a).2.sz_ = d.sz_ := by
  obtain ⟨d1, e1, I1, hsz, _⟩ := find_inv I ha
  have hb' : ¬ b < d1.size := by rw [I1.size_eq]; exact hb
  refine ⟨?_, by rw [e1]; exact I1, by rw [e1]; exact hsz⟩
  simp only [unite, e1, find_out_of_range d1 hb', I1.size_eq]

theorem chainState_reachable : Reachable 4 chainState :=
  Reachable.unite _ 0 2 (Reachable.unite _ 2 3 (Reachable.unite _ 0 1
    (Reachable.construct (by decide))))

theorem chainState_eq : chainState = { parent_ := [0, 0, 0, 2], sz_ := [4, 1, 2, 1] } := by
  decide

/-! ## Walks along parent links -/

theorem aboveCard_le_pred {N : Nat} (rank : Nat → Nat) {x : Nat} (hx : x < N) :
    aboveCard N rank x ≤ N - 1 := by
  have := aboveCard_lt rank hx
  omega

/-- Ranks do not go down along parent links, and the walk stays below `N`. -/
theorem ancestor_rank_le {N : Nat} {parent : List Nat} {rank rep : Nat → Nat}
    (F : Forest N parent rank rep) :
    ∀ j x y, x < N → ancestor parent j x = some y → y < N ∧ rank x ≤ rank y := by
  intro j
  induction j with
  | zero =>
    intro x y hx h
    simp only [ancestor, Option.some.injEq] at h
    subst h
    exact ⟨hx, Nat.le_refl _⟩
  | succ j ih =>
    intro x y hx h
    obtain ⟨p, hp, hpN, hrank, _, _⟩ := F.link x hx
    simp only [ancestor, hp] at h
    obtain ⟨hy, hle⟩ := ih p y hpN h
    refine ⟨hy, ?_⟩
    by_cases hpx : p = x
    · rw [← hpx]; exact hle
    · exact Nat.le_trans (Nat.le_of_lt (hrank hpx)) hle

/-- Only a root comes back to itself along parent links. -/
theorem ancestor_cycle_is_root {N : Nat} {parent : List Nat} {rank rep : Nat → Nat}
    (F : Forest N parent rank rep) {j x : Nat} (hx : x < N) (hj : 0 < j)
    (h : ancestor parent j x = some x) : parent[x]? = some x := by
  obtain ⟨p, hp, hpN, hrank, _, _⟩ := F.link x hx
  by_cases hpx : p = x
  · rw [hp, hpx]
  · obtain ⟨i, rfl⟩ : ∃ i, j = i + 1 := ⟨j - 1, by omega⟩
    simp only [ancestor, hp] at h
    have := (ancestor_rank_le F i p x hpN h).2
    have := hrank hpx
    omega

/-- From every index the root is reached within `aboveCard` links. -/
theorem ancestor_reaches_root {N : Nat} {parent : List Nat} {rank rep : Nat → Nat}
    (F : Forest N parent rank rep) :
    ∀ m x, x < N → aboveCard N rank x ≤ m →
      ∃ k, k ≤ m ∧ ancestor parent k x = some (rep x) ∧
        ∀ j, j < k → ∃ y, ancestor parent j x = some y ∧ parent[y]? ≠ some y := by
  intro m
  induction m with
  | zero =>
    intro x hx hm
    obtain ⟨p, hp, hpN, hrank, hrep, hroot⟩ := F.link x hx
    by_cases hpx : p = x
    · refine ⟨0, Nat.le_refl _, by simp [ancestor, hroot hpx], ?_⟩
      intro j hj
      exact absurd hj (Nat.not_lt_zero _)
    · have := aboveCard_lt_of_rank_lt hpN (hrank hpx)
      omega
  | succ m ih =>
    intro x hx hm
    obtain ⟨p, hp, hpN, hrank, hrep, hroot⟩ := F.link x hx
    by_cases hpx : p = x
    · refine ⟨0, Nat.zero_le _, by simp [ancestor, hroot hpx], ?_⟩
      intro j hj
      exact absurd hj (Nat.not_lt_zero _)
    · have hlt := aboveCard_lt_of_rank_lt hpN (hrank hpx)
      obtain ⟨k, hk, hanc, hvis⟩ := ih p hpN (by omega)
      refine ⟨k + 1, by omega, by simp only [ancestor, hp]; rw [← hrep]; exact hanc, ?_⟩
      intro j hj
      cases j with
      | zero =>
        refine ⟨x, rfl, ?_⟩
        rw [hp]
        intro h
        exact hpx (Option.some.inj h)
      | succ j =>
        obtain ⟨y, hy, hny⟩ := hvis j (by omega)
        exact ⟨y, by simp only [ancestor, hp]; exact hy, hny⟩

/-! ## Path halving, exactly -/

/-- One halving step keeps the forest and lifts `x` strictly below its grandparent. -/
theorem forest_halve {N : Nat} {parent : List Nat} {rank rep : Nat → Nat}
    (F : Forest N parent rank rep) {x p g : Nat} (hx : x < N) (hp : parent[x]? = some p)
    (hpx : p ≠ x) (hg : parent[p]? = some g) :
    Forest N (parent.set x g) rank rep ∧ rank x < rank g ∧ g < N ∧ rep g = rep x := by
  obtain ⟨p', hp', hpN, hrank, hrep, _⟩ := F.link x hx
  rw [hp] at hp'
  obtain rfl : p = p' := Option.some.inj hp'
  obtain ⟨g', hg', hgN, hrankg, hrepg, _⟩ := F.link p hpN
  rw [hg] at hg'
  obtain rfl : g = g' := Option.some.inj hg'
  have hxp : rank x < rank p := hrank hpx
  have hpg : rank p ≤ rank g := by
    by_cases hgp : g = p
    · rw [hgp]
    · exact Nat.le_of_lt (hrankg hgp)
  have hxg : rank x < rank g := by omega
  have hgx : g ≠ x := by
    intro h; rw [h] at hxg; exact Nat.lt_irrefl _ hxg
  have hxlen : x < parent.length := by rw [F.len]; exact hx
  refine ⟨⟨by rw [List.length_set]; exact F.len, ?_⟩, hxg, hgN, by rw [hrepg, hrep]⟩
  intro i hi
  by_cases hix : i = x
  · subst hix
    refine ⟨g, ?_, hgN, fun _ => hxg, by rw [hrepg, hrep], fun h => absurd h hgx⟩
    simp [List.getElem?_set, hxlen]
  · obtain ⟨q, hq, hqN, h1, h2, h3⟩ := F.link i hi
    refine ⟨q, ?_, hqN, h1, h2, h3⟩
    rw [List.getElem?_set_ne (Ne.symm hix)]
    exact hq

/-- Writing at `x` is not seen by the reads at a node of higher rank. -/
theorem reads_above_set {N : Nat} {parent : List Nat} {rank rep : Nat → Nat}
    (F : Forest N parent rank rep) (x g : Nat) {y : Nat} (hy : y < N)
    (hr : rank x < rank y) :
    (parent.set x g)[y]? = parent[y]? ∧
      grandparent (parent.set x g) y = grandparent parent y := by
  have hyx : y ≠ x := by
    intro h; rw [h] at hr; exact Nat.lt_irrefl _ hr
  have h1 : (parent.set x g)[y]? = parent[y]? := List.getElem?_set_ne (Ne.symm hyx)
  refine ⟨h1, ?_⟩
  obtain ⟨q, hq, hqN, hrank, _, _⟩ := F.link y hy
  have hqx : q ≠ x := by
    intro h
    by_cases hqy : q = y
    · exact hyx (hqy.symm.trans h)
    · have := hrank hqy
      rw [h] at this
      omega
  simp only [grandparent, h1, hq]
  exact List.getElem?_set_ne (Ne.symm hqx)

theorem grandparent_facts {N : Nat} {parent : List Nat} {rank rep : Nat → Nat}
    (F : Forest N parent rank rep) {y : Nat} (hy : y < N) :
    ∃ g, grandparent parent y = some g ∧ g < N ∧ rank y ≤ rank g := by
  obtain ⟨q, hq, hqN, hrank, _, _⟩ := F.link y hy
  obtain ⟨g, hg, hgN, hrankg, _, _⟩ := F.link q hqN
  refine ⟨g, by simp only [grandparent, hq]; exact hg, hgN, ?_⟩
  have h1 : rank y ≤ rank q := by
    by_cases h : q = y
    · rw [h]
    · exact Nat.le_of_lt (hrank h)
  have h2 : rank q ≤ rank g := by
    by_cases h : g = q
    · rw [h]
    · exact Nat.le_of_lt (hrankg h)
  omega

/-- The halving walk from a node of higher rank does not see a write at `x`. -/
theorem halvingWalk_set {N : Nat} {parent : List Nat} {rank rep : Nat → Nat}
    (F : Forest N parent rank rep) (x g : Nat) :
    ∀ fuel y, y < N → rank x < rank y →
      halvingWalk (parent.set x g) fuel y = halvingWalk parent fuel y := by
  intro fuel
  induction fuel with
  | zero => intro y _ _; rfl
  | succ fuel ih =>
    intro y hy hr
    obtain ⟨h1, h2⟩ := reads_above_set F x g hy hr
    obtain ⟨g', hg', hgN, hrg⟩ := grandparent_facts F hy
    simp only [halvingWalk, h1, h2, hg']
    rw [ih g' hgN (by omega)]

/-- The nodes of the halving walk are below `N` and not below `x` in rank. -/
theorem halvingWalk_mem {N : Nat} {parent : List Nat} {rank rep : Nat → Nat}
    (F : Forest N parent rank rep) :
    ∀ fuel x, x < N → ∀ i, i ∈ halvingWalk parent fuel x → i < N ∧ rank x ≤ rank i := by
  intro fuel
  induction fuel with
  | zero =>
    intro x hx i hi
    simp only [halvingWalk, List.mem_singleton] at hi
    subst hi
    exact ⟨hx, Nat.le_refl _⟩
  | succ fuel ih =>
    intro x hx i hi
    obtain ⟨g, hg, hgN, hrg⟩ := grandparent_facts F hx
    simp only [halvingWalk, hg] at hi
    by_cases hroot : parent[x]? = some x
    · simp only [hroot, if_true, List.mem_singleton] at hi
      subst hi
      exact ⟨hx, Nat.le_refl _⟩
    · simp only [hroot, if_false, List.mem_cons] at hi
      rcases hi with hi | hi
      · subst hi
        exact ⟨hx, Nat.le_refl _⟩
      · obtain ⟨h1, h2⟩ := ih g hgN i hi
        exact ⟨h1, by omega⟩

/-- The mutating find loop, exactly: it returns the last node of the halving walk, and
the parent vector it leaves holds the old grandparent at the nodes of the walk and the
old parent everywhere else. -/
theorem findLoop_exact {N : Nat} {rank rep : Nat → Nat} :
    ∀ fuel parent x, Forest N parent rank rep → x < N → aboveCard N rank x < fuel →
      ∃ parent', findLoop fuel parent x = (Outcome.ok (rep x), parent') ∧
        (halvingWalk parent fuel x).getLast? = some (rep x) ∧
        ∀ i : Nat, parent'[i]? =
          if i ∈ halvingWalk parent fuel x then grandparent parent i else parent[i]? := by
  intro fuel
  induction fuel with
  | zero => intro parent x _ _ h; exact absurd h (Nat.not_lt_zero _)
  | succ fuel ih =>
    intro parent x F hx hf
    obtain ⟨p, hp, hpN, hrank, hrep, hroot⟩ := F.link x hx
    by_cases hpx : p = x
    · subst hpx
      have hrx := hroot rfl
      refine ⟨parent, by simp [findLoop, hp, hrx], by simp [halvingWalk, hp, hrx], ?_⟩
      intro i
      simp only [halvingWalk, hp, if_true, List.mem_singleton]
      by_cases hip : i = p
      · subst hip
        simp [grandparent, hp]
      · simp [hip]
    · obtain ⟨g, hg, _, _, _, _⟩ := F.link p hpN
      obtain ⟨F1, hxg, hgN, hrepg⟩ := forest_halve F hx hp hpx hg
      have hxlen : x < parent.length := by rw [F.len]; exact hx
      have hnr : ¬ parent[x]? = some x := by
        rw [hp]
        intro h
        exact hpx (Option.some.inj h)
      have hgp : grandparent parent x = some g := by
        simp only [grandparent, hp]; exact hg
      obtain ⟨parent', e, hlast, hall⟩ :=
        ih (parent.set x g) g F1 hgN (by
          have := aboveCard_lt_of_rank_lt hgN hxg
          omega)
      have hwalk := halvingWalk_set F x g fuel g hgN hxg
      rw [hwalk] at hlast hall
      have hxnot : x ∉ halvingWalk parent fuel g := by
        intro hmem
        have := (halvingWalk_mem F fuel g hgN x hmem).2
        omega
      refine ⟨parent', ?_, ?_, ?_⟩
      · simp only [findLoop, hp, ne_eq, hpx, not_false_eq_true, if_true, hg]
        rw [e, hrepg]
      · simp only [halvingWalk, hnr, if_false, hgp]
        cases hw : halvingWalk parent fuel g with
        | nil => rw [hw] at hlast; simp at hlast
        | cons a l =>
          rw [hw] at hlast
          rw [List.getLast?_cons_cons, hlast, hrepg]
      · intro i
        simp only [halvingWalk, hnr, if_false, hgp, List.mem_cons]
        rw [hall i]
        by_cases hix : i = x
        · subst hix
          simp [hxnot, hgp, List.getElem?_set, hxlen]
        · by_cases hmem : i ∈ halvingWalk parent fuel g
          · obtain ⟨hiN, hri⟩ := halvingWalk_mem F fuel g hgN i hmem
            simp only [hmem, if_true, or_true]
            exact (reads_above_set F x g hiN (by omega)).2
          · simp only [hmem, if_false, hix, or_false]
            exact List.getElem?_set_ne (Ne.symm hix)

/-! ## Depth -/

theorem stepsToRoot_step {parent : List Nat} {x p : Nat} (hp : parent[x]? = some p)
    (hpx : p ≠ x) (fuel : Nat) :
    stepsToRoot parent (fuel + 1) x = (stepsToRoot parent fuel p).map (fun k => k + 1) := by
  simp [stepsToRoot, hp, hpx]

theorem stepsToRoot_fuel_mono (parent : List Nat) :
    ∀ fuel x k, stepsToRoot parent fuel x = some k →
      ∀ m, stepsToRoot parent (fuel + m) x = some k := by
  intro fuel
  induction fuel with
  | zero => intro x k h; simp [stepsToRoot] at h
  | succ fuel ih =>
    intro x k h m
    have hm : fuel + 1 + m = (fuel + m) + 1 := by omega
    rw [hm]
    cases hp : parent[x]? with
    | none => simp [stepsToRoot, hp] at h
    | some p =>
      by_cases hpx : p = x
      · simp only [stepsToRoot, hp, hpx, ne_eq, not_true_eq_false, if_false] at h ⊢
        exact h
      · simp only [stepsToRoot, hp, ne_eq, hpx, not_false_eq_true, if_true] at h ⊢
        cases hs : stepsToRoot parent fuel p with
        | none => rw [hs] at h; simp at h
        | some k' =>
          rw [hs] at h
          rw [ih p k' hs m]
          exact h

theorem stepsToRoot_exists {N : Nat} {parent : List Nat} {rank rep : Nat → Nat}
    (F : Forest N parent rank rep) :
    ∀ fuel x, x < N → aboveCard N rank x < fuel → ∃ k, stepsToRoot parent fuel x = some k := by
  intro fuel
  induction fuel with
  | zero => intro x _ h; exact absurd h (Nat.not_lt_zero _)
  | succ fuel ih =>
    intro x hx hf
    obtain ⟨p, hp, hpN, hrank, _, _⟩ := F.link x hx
    by_cases hpx : p = x
    · exact ⟨0, by simp [stepsToRoot, hp, hpx]⟩
    · have := aboveCard_lt_of_rank_lt hpN (hrank hpx)
      obtain ⟨k, hk⟩ := ih p hpN (by omega)
      exact ⟨k + 1, by simp [stepsToRoot, hp, hpx, hk]⟩

/-- The depth does not depend on the budget, once the budget is large enough. -/
theorem stepsToRoot_budget {N : Nat} {parent : List Nat} {rank rep : Nat → Nat}
    (F : Forest N parent rank rep) {x : Nat} (hx : x < N) {f1 f2 k : Nat}
    (h1 : aboveCard N rank x < f1) (h : stepsToRoot parent f2 x = some k) :
    stepsToRoot parent f1 x = some k := by
  obtain ⟨k1, hk1⟩ := stepsToRoot_exists F f1 x hx h1
  have e1 := stepsToRoot_fuel_mono parent f1 x k1 hk1 f2
  have e2 := stepsToRoot_fuel_mono parent f2 x k h f1
  rw [Nat.add_comm] at e2
  rw [e1] at e2
  rw [hk1, ← Option.some.inj e2]

/-- Replacing parents by grandparents does not make any element deeper. -/
theorem stepsToRoot_halved_le {N : Nat} {P P' : List Nat} {rank rep : Nat → Nat}
    (F : Forest N P rank rep)
    (hP : ∀ i, i < N → P'[i]? = P[i]? ∨ P'[i]? = grandparent P i) :
    ∀ fuel y, y < N → aboveCard N rank y < fuel →
      ∃ k k', stepsToRoot P fuel y = some k ∧ stepsToRoot P' fuel y = some k' ∧ k' ≤ k := by
  intro fuel
  induction fuel with
  | zero => intro y _ h; exact absurd h (Nat.not_lt_zero _)
  | succ fuel ih =>
    intro y hy hf
    obtain ⟨p, hp, hpN, hrank, _, _⟩ := F.link y hy
    by_cases hpy : p = y
    · subst hpy
      have hP' : P'[p]? = some p := by
        rcases hP p hy with h | h
        · rw [h, hp]
        · rw [h]; simp only [grandparent, hp]
      exact ⟨0, 0, by simp [stepsToRoot, hp], by simp [stepsToRoot, hP'], Nat.le_refl _⟩
    · have hyp : rank y < rank p := hrank hpy
      have hlt := aboveCard_lt_of_rank_lt hpN hyp
      obtain ⟨kp, kp', h1, h2, hle⟩ := ih p hpN (by omega)
      have hstep : stepsToRoot P (fuel + 1) y = some (kp + 1) := by
        rw [stepsToRoot_step hp hpy, h1]; rfl
      obtain ⟨g, hg, hgN, hrankg, _, _⟩ := F.link p hpN
      have hcase : P'[y]? = some p ∨ (P'[y]? = some g ∧ g ≠ p) := by
        rcases hP y hy with h | h
        · left; rw [h, hp]
        · by_cases hgp : g = p
          · left; rw [h]; simp only [grandparent, hp, hg, hgp]
          · right; exact ⟨by rw [h]; simp only [grandparent, hp, hg], hgp⟩
      rcases hcase with h | ⟨h, hgp⟩
      · exact ⟨kp + 1, kp' + 1, hstep, by rw [stepsToRoot_step h hpy, h2]; rfl, by omega⟩
      · have hpg : rank p < rank g := hrankg hgp
        have hgy : g ≠ y := by
          intro e; rw [e] at hpg; omega
        have hlt2 := aboveCard_lt_of_rank_lt hgN hpg
        obtain ⟨kg, kg', h3, h4, hle2⟩ := ih g hgN (by omega)
        obtain ⟨f, rfl⟩ : ∃ f, fuel = f + 1 := ⟨fuel - 1, by omega⟩
        have h5 : stepsToRoot P f g = some kg :=
          stepsToRoot_budget F hgN (by omega) h3
        have h6 : kp = kg + 1 := by
          rw [stepsToRoot_step hg hgp, h5] at h1
          exact (Option.some.inj h1).symm
        exact ⟨kp + 1, kg' + 1, hstep, by rw [stepsToRoot_step h hgy, h4]; rfl, by omega⟩

/-- After the mutating find every parent is the old parent or the old grandparent. -/
theorem find_parent_cases {N : Nat} {d : DisjointSetUnion} {rank rep : Nat → Nat}
    (I : Inv N d rank rep) {x : Nat} (hx : x < N) :
    ∀ i : Nat, (find d x).2.parent_[i]? = d.parent_[i]? ∨
      (find d x).2.parent_[i]? = grandparent d.parent_ i := by
  obtain ⟨parent', e, _, hall⟩ :=
    findLoop_exact N d.parent_ x I.forest hx (aboveCard_lt rank hx)
  have hfind : (find d x).2.parent_ = parent' := by
    simp [find, rassert, I.size_eq, hx, e]
  intro i
  rw [hfind, hall i]
  by_cases hmem : i ∈ halvingWalk d.parent_ N x
  · right; simp [hmem]
  · left; simp [hmem]

theorem find_depth_le {N : Nat} {d : DisjointSetUnion} {rank rep : Nat → Nat}
    (I : Inv N d rank rep) {x y : Nat} (hx : x < N) (hy : y < N) :
    ∃ k k', stepsToRoot d.parent_ N y = some k ∧
      stepsToRoot (find d x).2.parent_ N y = some k' ∧ k' ≤ k :=
  stepsToRoot_halved_le I.forest (fun i _ => find_parent_cases I hx i) N y hy
    (aboveCard_lt rank hy)

/-! ## Union by size keeps the trees shallow -/

/-- Depths after root `a` has been hung under root `k`: one more in the set of `a`,
the same elsewhere. -/
theorem link_steps {N : Nat} {P : List Nat} {rank rep : Nat → Nat}
    (F : Forest N P rank rep) {k a : Nat} (hk : P[k]? = some k) (ha : P[a]? = some a)
    (hka : k ≠ a) :
    ∀ fuel x k0, x < N → stepsToRoot P fuel x = some k0 →
      stepsToRoot (P.set a k) (fuel + 1) x = some (if rep x = a then k0 + 1 else k0) := by
  have halen : a < P.length := by
    by_contra hc
    rw [List.getElem?_eq_none (Nat.le_of_not_lt hc)] at ha
    exact Option.noConfusion ha
  have hk' : (P.set a k)[k]? = some k := by
    rw [List.getElem?_set_ne (Ne.symm hka)]; exact hk
  have ha' : (P.set a k)[a]? = some k := by
    simp [List.getElem?_set, halen]
  intro fuel
  induction fuel with
  | zero => intro x k0 _ h; simp [stepsToRoot] at h
  | succ fuel ih =>
    intro x k0 hx h
    obtain ⟨p, hp, hpN, _, hrep, hroot⟩ := F.link x hx
    by_cases hpx : p = x
    · subst hpx
      have hrp := hroot rfl
      have hk0 : k0 = 0 := by
        simp [stepsToRoot, hp] at h
        exact h.symm
      subst hk0
      by_cases hpa : p = a
      · subst hpa
        rw [stepsToRoot_step ha' hka]
        simp [stepsToRoot, hk', hrp]
      · have hp' : (P.set a k)[p]? = some p := by
          rw [List.getElem?_set_ne (Ne.symm hpa)]; exact hp
        simp [stepsToRoot, hp', hrp, hpa]
    · have hxa : x ≠ a := by
        intro e
        rw [e, ha] at hp
        exact hpx ((Option.some.inj hp).symm.trans e.symm)
      have hp' : (P.set a k)[x]? = some p := by
        rw [List.getElem?_set_ne (Ne.symm hxa)]; exact hp
      rw [stepsToRoot_step hp hpx] at h
      cases hs : stepsToRoot P fuel p with
      | none => rw [hs] at h; simp at h
      | some k1 =>
        rw [hs] at h
        have hk0 : k0 = k1 + 1 := (Option.some.inj h).symm
        rw [stepsToRoot_step hp' hpx, ih p k1 hpN hs, hrep, hk0]
        by_cases hra : rep x = a
        · simp [hra]
        · simp [hra]

theorem link_shallow {N : Nat} {d : DisjointSetUnion} {rank rep : Nat → Nat}
    (I : Inv N d rank rep) (S : Shallow N d rep) {k a : Nat} (hk : isRoot d k)
    (ha : isRoot d a) (hka : k ≠ a) (hle : fiberCard N rep a ≤ fiberCard N rep k)
    (s : List Nat) :
    Shallow N { parent_ := d.parent_.set a k, sz_ := s } (mergeRep rep k a) := by
  have F' := (link_inv I hk ha hka).forest
  intro x hx
  obtain ⟨k0, hk0, hpow⟩ := S x hx
  have h1 := link_steps I.forest hk ha hka N x k0 hx hk0
  have h2 := stepsToRoot_budget F' hx (aboveCard_lt _ hx) h1
  refine ⟨_, h2, ?_⟩
  by_cases hra : rep x = a
  · have e : mergeRep rep k a x = k := by simp [mergeRep, hra]
    rw [e, fiberCard_merge_kept N rep hka, if_pos hra, Nat.pow_succ]
    rw [hra] at hpow
    omega
  · rw [if_neg hra]
    have e : mergeRep rep k a x = rep x := by simp [mergeRep, hra]
    rw [e]
    by_cases hrk : rep x = k
    · rw [hrk, fiberCard_merge_kept N rep hka]
      rw [hrk] at hpow
      omega
    · rw [fiberCard_merge_other N rep hrk hra]
      exact hpow

theorem find_shallow {N : Nat} {d : DisjointSetUnion} {rank rep : Nat → Nat}
    (I : Inv N d rank rep) (S : Shallow N d rep) {x : Nat} (hx : x < N) :
    Shallow N (find d x).2 rep := by
  intro y hy
  obtain ⟨k0, hk0, hpow⟩ := S y hy
  obtain ⟨k, k', h1, h2, hle⟩ := find_depth_le I hx hy
  rw [hk0] at h1
  obtain rfl : k0 = k := Option.some.inj h1
  exact ⟨k', h2, Nat.le_trans (Nat.pow_le_pow_right (by decide) hle) hpow⟩

theorem unite_roots_keeps_shallow {N : Nat} {d : DisjointSetUnion} {rank rep : Nat → Nat}
    (I : Inv N d rank rep) (S : Shallow N d rep) {ra rb : Nat} (ha : isRoot d ra)
    (hb : isRoot d rb) :
    ∃ rank' rep', Inv N (unite_roots d ra rb).2 rank' rep' ∧
      Shallow N (unite_roots d ra rb).2 rep' := by
  obtain ⟨haN, _⟩ := I.rep_root ha
  obtain ⟨hbN, _⟩ := I.rep_root hb
  by_cases hne : ra = rb
  · subst hne
    have hr : ra < d.size := by rw [I.size_eq]; exact haN
    rw [unite_roots_same d hr]
    exact ⟨rank, rep, I, S⟩
  · have hsa := I.count ra haN ha
    have hsb := I.count rb hbN hb
    by_cases hlt : fiberCard N rep ra < fiberCard N rep rb
    · have e : (unite_roots d ra rb).2 =
          { parent_ := d.parent_.set ra rb,
            sz_ := d.sz_.set rb ((fiberCard N rep rb + fiberCard N rep ra) % SIZE_MOD) } := by
        simp [unite_roots, rassert, I.size_eq, haN, hbN, hne, hsa, hsb, hlt]
      rw [e]
      exact ⟨_, _, link_inv I hb ha (Ne.symm hne),
        link_shallow I S hb ha (Ne.symm hne) (Nat.le_of_lt hlt) _⟩
    · have e : (unite_roots d ra rb).2 =
          { parent_ := d.parent_.set rb ra,
            sz_ := d.sz_.set ra ((fiberCard N rep ra + fiberCard N rep rb) % SIZE_MOD) } := by
        simp [unite_roots, rassert, I.size_eq, haN, hbN, hne, hsa, hsb, hlt]
      rw [e]
      exact ⟨_, _, link_inv I ha hb hne, link_shallow I S ha hb hne (Nat.not_lt.1 hlt) _⟩

theorem unite_state {d d1 d2 : DisjointSetUnion} {a b ra rb : Nat}
    (e1 : find d a = (Outcome.ok ra, d1)) (e2 : find d1 b = (Outcome.ok rb, d2)) :
    (unite d a b).2 = (unite_roots d2 ra rb).2 := by
  simp only [unite, e1, e2]
  rcases hu : unite_roots d2 ra rb with ⟨o, d3⟩
  cases o with
  | ok pr => rfl
  | fail e => rfl

theorem unite_keeps_shallow {N : Nat} {d : DisjointSetUnion} {rank rep : Nat → Nat}
    (I : Inv N d rank rep) (S : Shallow N d rep) (a b : Nat) :
    ∃ rank' rep', Inv N (unite d a b).2 rank' rep' ∧ Shallow N (unite d a b).2 rep' := by
  by_cases ha : a < N
  · obtain ⟨d1, e1, I1, _, _⟩ := find_inv I ha
    have S1 : Shallow N d1 rep := by
      have := find_shallow I S ha
      rw [e1] at this
      exact this
    by_cases hb : b < N
    · obtain ⟨d2, e2, I2, _, _⟩ := find_inv I1 hb
      have S2 : Shallow N d2 rep := by
        have := find_shallow I1 S1 hb
        rw [e2] at this
        exact this
      rw [unite_state e1 e2]
      exact unite_roots_keeps_shallow I2 S2 (find_const_inv I2 ha).2.1
        (find_const_inv I2 hb).2.1
    · have hb' : ¬ b < d1.size := by rw [I1.size_eq]; exact hb
      refine ⟨rank, rep, ?_⟩
      simp only [unite, e1, find_out_of_range d1 hb']
      exact ⟨I1, S1⟩
  · have ha' : ¬ a < d.size := by rw [I.size_eq]; exact ha
    refine ⟨rank, rep, ?_⟩
    simp only [unite, find_out_of_range d ha']
    exact ⟨I, S⟩

theorem construct_shallow (N : Nat) : Shallow N (construct N) (fun i => i) := by
  intro x hx
  obtain ⟨m, rfl⟩ : ∃ m, N = m + 1 := ⟨N - 1, by omega⟩
  have hp : (construct (m + 1)).parent_[x]? = some x := construct_isRoot hx
  refine ⟨0, by simp [stepsToRoot, hp], ?_⟩
  have : fiberCard (m + 1) (fun i => i) x = 1 := by
    simp [fiberCard, Finset.filter_eq', hx]
  rw [this]
  exact Nat.le_refl _

/-- Every reachable state satisfies the invariant and is shallow. -/
theorem reachable_shallow {N : Nat} {d : DisjointSetUnion} (h : Reachable N d) :
    ∃ rank rep, Inv N d rank rep ∧ Shallow N d rep := by
  induction h with
  | construct hN => exact ⟨_, _, construct_inv hN, construct_shallow N⟩
  | find d x _ ih =>
    obtain ⟨rank, rep, I, S⟩ := ih
    by_cases hx : x < N
    · exact ⟨rank, rep, (find_fst_inv I hx).2, find_shallow I S hx⟩
    · have hx' : ¬ x < d.size := by rw [I.size_eq]; exact hx
      exact ⟨rank, rep, by rw [find_out_of_range d hx']; exact ⟨I, S⟩⟩
  | unite d a b _ ih =>
    obtain ⟨rank, rep, I, S⟩ := ih
    exact unite_keeps_shallow I S a b
  | unite_roots d ra rb _ ha hb ih =>
    obtain ⟨rank, rep, I, S⟩ := ih
    exact unite_roots_keeps_shallow I S ha hb

/-! ## The integer dot product -/

theorem int_mul_bounds {x r : Int} (hx : fitsInt x) (hr : fitsInt r) :
    -4611686018427387904 ≤ x * r ∧ x * r ≤ 4611686018427387904 := by
  unfold fitsInt INT_MIN INT_MAX at hx hr
  obtain ⟨hx1, hx2⟩ := hx
  obtain ⟨hr1, hr2⟩ := hr
  constructor
  · nlinarith [mul_nonneg (sub_nonneg.2 hx1) (sub_nonneg.2 hr2),
      mul_nonneg (sub_nonneg.2 hx2) (sub_nonneg.2 hr1)]
  · nlinarith [mul_nonneg (sub_nonneg.2 hx1) (sub_nonneg.2 hr1),
      mul_nonneg (sub_nonneg.2 hx2) (sub_nonneg.2 hr2)]

theorem wrapLongLong_mul {x r : Int} (hx : fitsInt x) (hr : fitsInt r) :
    wrapLongLong (x * r) = x * r := by
  obtain ⟨h1, h2⟩ := int_mul_bounds hx hr
  unfold wrapLongLong
  omega

theorem wrapLongLong_of_fits {a b : Int} (ha : fitsInt a) (hb : fitsInt b) :
    wrapLongLong (a + b) = a + b := by
  unfold fitsInt INT_MIN INT_MAX at ha hb
  unfold wrapLongLong
  omega

theorem wrapInt_of_fits {s : Int} (hs : fitsInt s) : wrapInt s = s := by
  unfold fitsInt INT_MIN INT_MAX at hs
  unfold wrapInt
  omega

/-! ## The naive reference -/

theorem naive_constructLoop_getElem? (k : Nat) (l : List Int) (j : Nat) :
    (NaiveComponents.constructLoop k l)[j]? =
      if j < k ∧ j < l.length then some (castInt j) else l[j]? := by
  induction k with
  | zero => simp [NaiveComponents.constructLoop]
  | succ k ih =>
    have h : NaiveComponents.constructLoop (k + 1) l =
        (NaiveComponents.constructLoop k l).set k (castInt k) := by
      simp [NaiveComponents.constructLoop, List.range_succ, List.foldl_append]
    have hl : ∀ m, (NaiveComponents.constructLoop m l).length = l.length := by
      intro m
      induction m with
      | zero => simp [NaiveComponents.constructLoop]
      | succ m ihm =>
        have : NaiveComponents.constructLoop (m + 1) l =
            (NaiveComponents.constructLoop m l).set m (castInt m) := by
          simp [NaiveComponents.constructLoop, List.range_succ, List.foldl_append]
        rw [this, List.length_set, ihm]
    rw [h, List.getElem?_set, ih]
    by_cases hkj : k = j
    · subst hkj
      simp only [hl, lt_self_iff_false, false_and, if_false]
      by_cases h1 : k < l.length
      · simp [h1]
      · simp [h1, List.getElem?_eq_none (Nat.le_of_not_lt h1)]
    · simp only [hkj, if_false]
      by_cases h1 : j < k
      · have : j < k + 1 := by omega
        simp [h1, this]
      · have : ¬ j < k + 1 := by omega
        simp [h1, this]

theorem naive_construct_getElem? {n i : Nat} (hi : i < n) :
    (NaiveComponents.construct n).comp_[i]? = some (castInt i) := by
  simp only [NaiveComponents.construct, naive_constructLoop_getElem?, List.length_replicate]
  simp [hi]

theorem naive_construct_length (n : Nat) : (NaiveComponents.construct n).comp_.length = n := by
  have hl : ∀ m (l : List Int), (NaiveComponents.constructLoop m l).length = l.length := by
    intro m l
    induction m with
    | zero => simp [NaiveComponents.constructLoop]
    | succ m ihm =>
      have : NaiveComponents.constructLoop (m + 1) l =
          (NaiveComponents.constructLoop m l).set m (castInt m) := by
        simp [NaiveComponents.constructLoop, List.range_succ, List.foldl_append]
      rw [this, List.length_set, ihm]
  simp [NaiveComponents.construct, hl]

theorem castInt_injective {i j : Nat} (hi : i < 4294967296) (hj : j < 4294967296)
    (h : castInt i = castInt j) : i = j := by
  unfold castInt wrapInt at h
  omega

theorem construct_agree {N : Nat} (hN : N ≤ 4294967296) :
    Agree N (NaiveComponents.construct N) (fun i => i) := by
  refine ⟨naive_construct_length N, ?_⟩
  intro i j hi hj
  rw [naive_construct_getElem? hi, naive_construct_getElem? hj]
  constructor
  · intro h
    exact castInt_injective (by omega) (by omega) (Option.some.inj h)
  · intro h
    rw [show i = j from h]

/-- The counting loop of `set_size` counts the labels equal to `cx`. -/
theorem count_foldl (cx : Int) (l : List Int) (n : Nat) :
    l.foldl (fun cnt c => if c = cx then cnt + 1 else cnt) n =
      n + l.countP (fun c => decide (c = cx)) := by
  induction l generalizing n with
  | nil => simp
  | cons c l ih =>
    simp only [List.foldl_cons, ih, List.countP_cons]
    by_cases h : c = cx
    · simp [h]; omega
    · simp [h]

theorem countP_range_card (N : Nat) (p : Nat → Prop) [DecidablePred p] :
    (List.range N).countP (fun i => decide (p i)) = ((Finset.range N).filter p).card := by
  rw [List.countP_eq_length_filter]
  rfl

theorem countP_eq_card (l : List Int) (cx : Int) :
    l.countP (fun c => decide (c = cx)) =
      ((Finset.range l.length).filter (fun i => l[i]? = some cx)).card := by
  have hl : l = (List.range l.length).map (fun i => l[i]?.getD 0) := by
    apply List.ext_getElem?
    intro i
    by_cases h : i < l.length
    · simp [h, List.getElem?_range, List.getElem?_eq_getElem]
    · have h' : l.length ≤ i := Nat.le_of_not_lt h
      simp [List.getElem?_eq_none, h']
  have h1 : l.countP (fun c => decide (c = cx)) =
      (List.range l.length).countP (fun i => decide (l[i]?.getD 0 = cx)) := by
    conv_lhs => rw [hl]
    rw [List.countP_map]
    rfl
  rw [h1, countP_range_card]
  congr 1
  apply Finset.filter_congr
  intro i hi
  have hlt : i < l.length := Finset.mem_range.1 hi
  simp [List.getElem?_eq_getElem hlt]

theorem agree_get {N : Nat} {nv : NaiveComponents} {rep : Nat → Nat} (A : Agree N nv rep)
    {i : Nat} (hi : i < N) : ∃ c, nv.comp_[i]? = some c := by
  have hlt : i < nv.comp_.length := by rw [A.len]; exact hi
  exact ⟨nv.comp_[i], List.getElem?_eq_getElem hlt⟩

theorem naive_set_size_agree {N : Nat} {nv : NaiveComponents} {rep : Nat → Nat}
    (A : Agree N nv rep) {x : Nat} (hx : x < N) :
    NaiveComponents.set_size nv x = Outcome.ok (fiberCard N rep (rep x)) := by
  obtain ⟨cx, hcx⟩ := agree_get A hx
  simp only [NaiveComponents.set_size, hcx, count_foldl, countP_eq_card, A.len, Nat.zero_add]
  congr 2
  apply Finset.filter_congr
  intro i hi
  rw [← hcx]
  exact A.same i x (Finset.mem_range.1 hi) hx

theorem naive_same_agree {N : Nat} {nv : NaiveComponents} {rep : Nat → Nat}
    (A : Agree N nv rep) {a b : Nat} (ha : a < N) (hb : b < N) :
    NaiveComponents.same nv a b = Outcome.ok (decide (rep a = rep b)) := by
  obtain ⟨ca, hca⟩ := agree_get A ha
  obtain ⟨cb, hcb⟩ := agree_get A hb
  have h := A.same a b ha hb
  rw [hca, hcb] at h
  simp only [NaiveComponents.same, hca, hcb]
  by_cases hr : rep a = rep b
  · have : ca = cb := Option.some.inj (h.2 hr)
    simp [hr, this]
  · have : ca ≠ cb := fun e => hr (h.1 (by rw [e]))
    simp [hr, this]

theorem naive_unite_agree {N : Nat} {nv : NaiveComponents} {rep : Nat → Nat}
    (A : Agree N nv rep) {a b : Nat} (ha : a < N) (hb : b < N) :
    ∃ nv', NaiveComponents.unite nv a b = (Outcome.ok (decide (rep a ≠ rep b)), nv') ∧
      Agree N nv' (uniteRep N rep a b) := by
  obtain ⟨ca, hca⟩ := agree_get A ha
  obtain ⟨cb, hcb⟩ := agree_get A hb
  have h := A.same a b ha hb
  rw [hca, hcb] at h
  by_cases hr : rep a = rep b
  · have hc : ca = cb := Option.some.inj (h.2 hr)
    refine ⟨nv, by simp [NaiveComponents.unite, hca, hcb, hc, hr], ?_⟩
    have : uniteRep N rep a b = rep := by simp [uniteRep, hr]
    rw [this]
    exact A
  · have hc : ca ≠ cb := fun e => hr (h.1 (by rw [e]))
    refine ⟨{ comp_ := nv.comp_.map (fun c => if c = cb then ca else c) },
      by simp [NaiveComponents.unite, hca, hcb, hc, hr], ⟨by simp [A.len], ?_⟩⟩
    intro i j hi hj
    obtain ⟨ci, hci⟩ := agree_get A hi
    obtain ⟨cj, hcj⟩ := agree_get A hj
    have hij := A.same i j hi hj
    have hia := A.same i a hi ha
    have hib := A.same i b hi hb
    have hja := A.same j a hj ha
    have hjb := A.same j b hj hb
    rw [hci, hcj] at hij
    rw [hci, hca] at hia
    rw [hci, hcb] at hib
    rw [hcj, hca] at hja
    rw [hcj, hcb] at hjb
    simp only [Option.some.injEq] at hij hia hib hja hjb
    rw [uniteRep_eq_iff]
    simp only [List.getElem?_map, hci, hcj, Option.map_some', Option.some.injEq]
    rw [← hij, ← hia, ← hib, ← hja, ← hjb]
    split_ifs <;> omega

/-- One operation with in-range arguments gives the same answer on both structures and
keeps them in agreement. -/
theorem step_agree {N : Nat} {d : DisjointSetUnion} {nv : NaiveComponents}
    {rank rep : Nat → Nat} (I : Inv N d rank rep) (A : Agree N nv rep) {op : Op}
    (hop : op.inRange N) :
    ∃ ans rank' rep', (stepDsu d op).1 = Outcome.ok ans ∧
      (stepNaive nv op).1 = Outcome.ok ans ∧
      Inv N (stepDsu d op).2 rank' rep' ∧ Agree N (stepNaive nv op).2 rep' := by
  cases op with
  | unite a b =>
    obtain ⟨ha, hb⟩ := hop
    obtain ⟨d', rank', e, I'⟩ := unite_inv I ha hb
    obtain ⟨nv', e', A'⟩ := naive_unite_agree A ha hb
    exact ⟨Answer.bool (decide (rep a ≠ rep b)), rank', uniteRep N rep a b,
      by simp only [stepDsu, e], by simp only [stepNaive, e'],
      by simp only [stepDsu, e]; exact I', by simp only [stepNaive, e']; exact A'⟩
  | same a b =>
    obtain ⟨ha, hb⟩ := hop
    obtain ⟨d1, e1, I1, _, _⟩ := find_inv I ha
    obtain ⟨d2, e2, I2, _, _⟩ := find_inv I1 hb
    have e' := naive_same_agree A ha hb
    refine ⟨Answer.bool (decide (rep a = rep b)), rank, rep, ?_,
      by simp only [stepNaive, e'], by simp only [stepDsu, e1, e2]; exact I2,
      by simp only [stepNaive, e']; exact A⟩
    simp only [stepDsu, e1, e2]
    by_cases hr : rep a = rep b
    · simp [hr]
    · simp [hr]
  | set_size x =>
    have hx : x < N := hop
    have e := set_size_inv I hx
    have e' := naive_set_size_agree A hx
    exact ⟨Answer.count (fiberCard N rep (rep x)), rank, rep,
      by simp only [stepDsu, e], by simp only [stepNaive, e'],
      by simp only [stepDsu, e]; exact I, by simp only [stepNaive, e']; exact A⟩

theorem run_agree {N : Nat} :
    ∀ (ops : List Op) (d : DisjointSetUnion) (nv : NaiveComponents) (rank rep : Nat → Nat),
      Inv N d rank rep → Agree N nv rep → (∀ op, op ∈ ops → op.inRange N) →
      runDsu d ops = runNaive nv ops ∧ ∀ o, o ∈ runDsu d ops → o.isOk = true := by
  intro ops
  induction ops with
  | nil =>
    intro d nv rank rep _ _ _
    exact ⟨rfl, by intro o ho; simp [runDsu] at ho⟩
  | cons op ops ih =>
    intro d nv rank rep I A hops
    obtain ⟨ans, rank', rep', h1, h2, I', A'⟩ :=
      step_agree I A (hops op (List.mem_cons_self _ _))
    obtain ⟨hrun, hok⟩ := ih _ _ rank' rep' I' A'
      (fun o ho => hops o (List.mem_cons_of_mem _ ho))
    refine ⟨by simp only [runDsu, runNaive, h1, h2, hrun], ?_⟩
    intro o ho
    simp only [runDsu, List.mem_cons] at ho
    rcases ho with ho | ho
    · rw [ho, h1]; rfl
    · exact hok o ho

/-! ## The contract, continued -/

/-- C11: in a reachable state an operation fails with the out-of-range condition exactly
when one of its index arguments is not below `N`, and returns a value exactly when all
are below `N`: `find` (both overloads) and `set_size` for `x`, `unite` for `a`, `b`,
`unite_roots` for `ra`, `rb` (roots or not).  In particular `find(N)` fails, every
`find` on `construct 0` fails, and `size()` is a plain value, `N`. -/
theorem C11_fails_iff_index_out_of_range (N : Nat) (d : DisjointSetUnion)
    (x a b ra rb : Nat) (h : Reachable N d) :
    d.size = N ∧
    (((find d x).1.isOutOfRange = true ↔ ¬ x < N) ∧ ((find d x).1.isOk = true ↔ x < N)) ∧
    (((find_const d x).isOutOfRange = true ↔ ¬ x < N) ∧
      ((find_const d x).isOk = true ↔ x < N)) ∧
    (((set_size d x).isOutOfRange = true ↔ ¬ x < N) ∧
      ((set_size d x).isOk = true ↔ x < N)) ∧
    (((unite d a b).1.isOutOfRange = true ↔ (¬ a < N ∨ ¬ b < N)) ∧
      ((unite d a b).1.isOk = true ↔ (a < N ∧ b < N))) ∧
    (((unite_roots d ra rb).1.isOutOfRange = true ↔ (¬ ra < N ∨ ¬ rb < N)) ∧
      ((unite_roots d ra rb).1.isOk = true ↔ (ra < N ∧ rb < N))) ∧
    (find d N).1 = Outcome.fail (Failure.assertion_error 2391578193411 N N) ∧
    find_const d N = Outcome.fail (Failure.assertion_error 2391578193412 N N) ∧
    (∀ y, (find (construct 0) y).1.isOutOfRange = true ∧
      (find_const (construct 0) y).isOutOfRange = true) := by
  obtain ⟨rank, rep, I⟩ := reachable_inv h
  have hsize := I.size_eq
  refine ⟨hsize, ?_, ?_, ?_, ?_, ?_, ?_, ?_, ?_⟩
  · by_cases hx : x < N
    · rw [(find_fst_inv I hx).1]
      simp [Outcome.isOutOfRange, Outcome.isOk, hx]
    · rw [find_out_of_range d (by rw [hsize]; exact hx)]
      simp [Outcome.isOutOfRange, Outcome.isOk, hx]
  · by_cases hx : x < N
    · rw [(find_const_inv I hx).1]
      simp [Outcome.isOutOfRange, Outcome.isOk, hx]
    · rw [find_const_out_of_range d (by rw [hsize]; exact hx)]
      simp [Outcome.isOutOfRange, Outcome.isOk, hx]
  · by_cases hx : x < N
    · rw [set_size_inv I hx]
      simp [Outcome.isOutOfRange, Outcome.isOk, hx]
    · rw [set_size_out_of_range d (by rw [hsize]; exact hx)]
      simp [Outcome.isOutOfRange, Outcome.isOk, hx]
  · by_cases ha : a < N
    · by_cases hb : b < N
      · obtain ⟨d', rank', e, _⟩ := unite_inv I ha hb
        rw [e]
        simp [Outcome.isOutOfRange, Outcome.isOk, ha, hb]
      · rw [(unite_out_of_range_right I ha hb).1]
        simp [Outcome.isOutOfRange, Outcome.isOk, ha, hb]
    · rw [unite_out_of_range_left d b (by rw [hsize]; exact ha)]
      simp [Outcome.isOutOfRange, Outcome.isOk, ha]
  · by_cases ha : ra < N
    · by_cases hb : rb < N
      · obtain ⟨pr, e⟩ := unite_roots_in_range_ok d (I.slen.trans I.forest.len.symm)
          (by rw [hsize]; exact ha) (by rw [hsize]; exact hb)
        rw [e]
        simp [Outcome.isOutOfRange, Outcome.isOk, ha, hb]
      · rw [unite_roots_out_of_range_right d (by rw [hsize]; exact ha)
          (by rw [hsize]; exact hb)]
        simp [Outcome.isOutOfRange, Outcome.isOk, ha, hb]
    · rw [unite_roots_out_of_range_left d rb (by rw [hsize]; exact ha)]
      simp [Outcome.isOutOfRange, Outcome.isOk, ha]
  · have := find_out_of_range d (x := N) (by rw [hsize]; exact Nat.lt_irrefl N)
    rw [this, hsize]
  · have := find_const_out_of_range d (x := N) (by rw [hsize]; exact Nat.lt_irrefl N)
    rw [this, hsize]
  · intro y
    have h0 : ¬ y < (construct 0).size := by rw [construct_size]; exact Nat.not_lt_zero y
    rw [find_out_of_range _ h0, find_const_out_of_range _ h0]
    simp [Outcome.isOutOfRange]

/-- Witness of C11: `N = 4`, the state after `unite(0, 1)`, with one index in range and
one out of range for each operation. -/
theorem C11_fails_iff_index_out_of_range_witness :
    Reachable 4 (unite (construct 4) 0 1).2 ∧
    (find (unite (construct 4) 0 1).2 4).1.isOutOfRange = true ∧
    (unite (unite (construct 4) 0 1).2 1 7).1.isOutOfRange = true ∧
    (unite_roots (unite (construct 4) 0 1).2 1 3).1.isOk = true :=
  ⟨Reachable.unite _ 0 1 (Reachable.construct (by decide)),
    ((C11_fails_iff_index_out_of_range 4 (unite (construct 4) 0 1).2 4 1 7 1 3
      (Reachable.unite _ 0 1 (Reachable.construct (by decide)))).2.1.1).2 (by decide),
    ((C11_fails_iff_index_out_of_range 4 (unite (construct 4) 0 1).2 4 1 7 1 3
      (Reachable.unite _ 0 1 (Reachable.construct (by decide)))).2.2.2.2.1.1).2
        (Or.inr (by decide)),
    ((C11_fails_iff_index_out_of_range 4 (unite (construct 4) 0 1).2 4 1 7 1 3
      (Reachable.unite _ 0 1 (Reachable.construct (by decide)))).2.2.2.2.2.1.2).2
        ⟨by decide, by decide⟩⟩

theorem runDsu_same_fresh {N i j : Nat} (hi : i < N) (hj : j < N) :
    runDsu (construct N) [Op.same i j] = [Outcome.ok (Answer.bool (i == j))] := by
  simp only [runDsu, stepDsu, find_root (construct_isRoot hi), find_root (construct_isRoot hj)]

theorem runNaive_same_fresh {N i j : Nat} (hi : i < N) (hj : j < N) :
    runNaive (NaiveComponents.construct N) [Op.same i j] =
      [Outcome.ok (Answer.bool (decide (castInt i = castInt j)))] := by
  simp only [runNaive, stepNaive, NaiveComponents.same, naive_construct_getElem? hi,
    naive_construct_getElem? hj]

/-- C12 as stated fails for universes above `2 ^ 32`: the naive reference labels element
`i` with `static_cast<int>(i)`, so in a universe of `2 ^ 32 + 1` elements the elements
`0` and `2 ^ 32` both carry the label `0`.  The query on `0` and `2 ^ 32`, the first
operation on fresh structures, is answered `false` by the `DisjointSetUnion` and `true`
by `NaiveComponents`. -/
theorem C12_naive_labels_collide_counterexample :
    4294967297 < SIZE_MOD ∧ (Op.same 0 4294967296).inRange 4294967297 ∧
    runDsu (construct 4294967297) [Op.same 0 4294967296] =
      [Outcome.ok (Answer.bool false)] ∧
    runNaive (NaiveComponents.construct 4294967297) [Op.same 0 4294967296] =
      [Outcome.ok (Answer.bool true)] := by
  refine ⟨by decide, ⟨by decide, by decide⟩, ?_, ?_⟩
  · rw [runDsu_same_fresh (by decide) (by decide)]
    rfl
  · rw [runNaive_same_fresh (by decide) (by decide)]
    rfl

/-- C12 amended: differential equivalence with the naive reference for universes of at
most `2 ^ 32` elements, where the `int` labels are pairwise distinct.  For every
`N <= 2 ^ 32` and every finite sequence of operations with in-range arguments, the runs
on `DisjointSetUnion(N)` and on `NaiveComponents(N)` give the same answer at every step,
and every answer is a value: `unite(a, b)` the same boolean, `find(a) == find(b)` the
boolean of `same(a, b)`, `set_size(x)` the same number. -/
theorem C12_differential_equivalence (N : Nat) (ops : List Op) (hN : N ≤ 4294967296)
    (hops : ∀ op, op ∈ ops → op.inRange N) :
    runDsu (construct N) ops = runNaive (NaiveComponents.construct N) ops ∧
      ∀ o, o ∈ runDsu (construct N) ops → o.isOk = true :=
  run_agree ops (construct N) (NaiveComponents.construct N) (fun _ => 0) (fun i => i)
    (construct_inv (Nat.lt_of_le_of_lt hN (by decide))) (construct_agree hN) hops

/-- Witness of C12 amended: `N = 4` and a run of six operations. -/
theorem C12_differential_equivalence_witness :
    4 ≤ 4294967296 ∧
    (∀ op, op ∈ [Op.unite 0 1, Op.same 1 0, Op.set_size 1, Op.unite 2 3, Op.unite 3 1,
      Op.set_size 2] → op.inRange 4) ∧
    runDsu (construct 4) [Op.unite 0 1, Op.same 1 0, Op.set_size 1, Op.unite 2 3,
        Op.unite 3 1, Op.set_size 2] =
      runNaive (NaiveComponents.construct 4) [Op.unite 0 1, Op.same 1 0, Op.set_size 1,
        Op.unite 2 3, Op.unite 3 1, Op.set_size 2] ∧
    ∀ o, o ∈ runDsu (construct 4) [Op.unite 0 1, Op.same 1 0, Op.set_size 1, Op.unite 2 3,
        Op.unite 3 1, Op.set_size 2] → o.isOk = true :=
  ⟨by decide, by decide,
    C12_differential_equivalence 4 [Op.unite 0 1, Op.same 1 0, Op.set_size 1, Op.unite 2 3,
      Op.unite 3 1, Op.set_size 2] (by decide) (by decide)⟩

/-- C13: in a reachable state the parent links are acyclic apart from the self-loops of
roots.  From every `x < N` a root is reached after `k <= N - 1` links, no node before
it is a root, every index on the way (and beyond) is below `N`, only a root comes back
to itself, and both find loops finish with that root on every budget of at least `N`
iterations (the budget `size()` of the model included). -/
theorem C13_parent_links_acyclic (N : Nat) (d : DisjointSetUnion) (x : Nat)
    (h : Reachable N d) (hx : x < N) :
    ∃ k r, k ≤ N - 1 ∧ ancestor d.parent_ k x = some r ∧ isRoot d r ∧
      (∀ j, j < k → ∃ y, ancestor d.parent_ j x = some y ∧ ¬ isRoot d y) ∧
      (∀ j y, ancestor d.parent_ j x = some y → y < N) ∧
      (∀ j, 0 < j → ancestor d.parent_ j x = some x → isRoot d x) ∧
      (∀ fuel, N ≤ fuel → findConstLoop d.parent_ fuel x = Outcome.ok r ∧
        (findLoop fuel d.parent_ x).1 = Outcome.ok r) ∧
      find_const d x = Outcome.ok r ∧ (find d x).1 = Outcome.ok r := by
  obtain ⟨rank, rep, I⟩ := reachable_inv h
  obtain ⟨k, hk, hanc, hvis⟩ :=
    ancestor_reaches_root I.forest (N - 1) x hx (aboveCard_le_pred rank hx)
  obtain ⟨ec, hroot, _⟩ := find_const_inv I hx
  refine ⟨k, rep x, hk, hanc, hroot, hvis, ?_, ?_, ?_, ec, (find_fst_inv I hx).1⟩
  · intro j y hy
    exact (ancestor_rank_le I.forest j x y hx hy).1
  · intro j hj hcyc
    exact ancestor_cycle_is_root I.forest hx hj hcyc
  · intro fuel hfuel
    have hlt : aboveCard N rank x < fuel := Nat.lt_of_lt_of_le (aboveCard_lt rank hx) hfuel
    obtain ⟨parent', e, _⟩ := findLoop_eq fuel d.parent_ x I.forest hx hlt
    exact ⟨(findConstLoop_eq I.forest fuel x hx hlt).1, by rw [e]⟩

/-- Witness of C13: `chainState` and `x = 3`. -/
theorem C13_parent_links_acyclic_witness :
    Reachable 4 chainState ∧ 3 < 4 ∧
    ∃ k r, k ≤ 4 - 1 ∧ ancestor chainState.parent_ k 3 = some r ∧ isRoot chainState r ∧
      (∀ j, j < k → ∃ y, ancestor chainState.parent_ j 3 = some y ∧ ¬ isRoot chainState y) ∧
      (∀ j y, ancestor chainState.parent_ j 3 = some y → y < 4) ∧
      (∀ j, 0 < j → ancestor chainState.parent_ j 3 = some 3 → isRoot chainState 3) ∧
      (∀ fuel, 4 ≤ fuel → findConstLoop chainState.parent_ fuel 3 = Outcome.ok r ∧
        (findLoop fuel chainState.parent_ 3).1 = Outcome.ok r) ∧
      find_const chainState 3 = Outcome.ok r ∧ (find chainState 3).1 = Outcome.ok r :=
  ⟨chainState_reachable, by decide,
    C13_parent_links_acyclic 4 chainState 3 chainState_reachable (by decide)⟩

/-- C14: path halving, exactly.  In a reachable state, for `x < N`, let the walk be
`x0 = x`, `x(k+1) = parent[parent[xk]]` in the parent vector before the call, until a
root is reached.  The mutating `find(x)` returns the last node of the walk; afterwards
each visited non-root node has as parent its grandparent of before, every other entry
of the parent vector is as it was, and so is the whole size vector. -/
theorem C14_path_halving_exact (N : Nat) (d : DisjointSetUnion) (x : Nat)
    (h : Reachable N d) (hx : x < N) :
    ∃ r, (halvingWalk d.parent_ N x).getLast? = some r ∧ isRoot d r ∧
      (find d x).1 = Outcome.ok r ∧
      (∀ i, i ∈ halvingWalk d.parent_ N x → ¬ isRoot d i →
        (find d x).2.parent_[i]? = grandparent d.parent_ i) ∧
      (∀ i : Nat, ¬ (i ∈ halvingWalk d.parent_ N x ∧ ¬ isRoot d i) →
        (find d x).2.parent_[i]? = d.parent_[i]?) ∧
      (find d x).2.sz_ = d.sz_ := by
  obtain ⟨rank, rep, I⟩ := reachable_inv h
  obtain ⟨parent', e, hlast, hall⟩ :=
    findLoop_exact N d.parent_ x I.forest hx (aboveCard_lt rank hx)
  have hfind : find d x = (Outcome.ok (rep x), { d with parent_ := parent' }) := by
    simp [find, rassert, I.size_eq, hx, e]
  refine ⟨rep x, hlast, (find_const_inv I hx).2.1, by rw [hfind], ?_, ?_, by rw [hfind]⟩
  · intro i hmem _
    rw [hfind]
    simp only [hall i, hmem, if_true]
  · intro i hni
    rw [hfind]
    simp only [hall i]
    by_cases hmem : i ∈ halvingWalk d.parent_ N x
    · have hroot : isRoot d i := by
        by_contra hc
        exact hni ⟨hmem, hc⟩
      unfold isRoot at hroot
      simp only [hmem, if_true, grandparent, hroot]
    · simp only [hmem, if_false]

/-- Witness of C14: `chainState`, where `find(3)` walks `3, 0` and rewrites the parent
of `3`. -/
theorem C14_path_halving_exact_witness :
    Reachable 4 chainState ∧ 3 < 4 ∧
    ∃ r, (halvingWalk chainState.parent_ 4 3).getLast? = some r ∧ isRoot chainState r ∧
      (find chainState 3).1 = Outcome.ok r ∧
      (∀ i, i ∈ halvingWalk chainState.parent_ 4 3 → ¬ isRoot chainState i →
        (find chainState 3).2.parent_[i]? = grandparent chainState.parent_ i) ∧
      (∀ i : Nat, ¬ (i ∈ halvingWalk chainState.parent_ 4 3 ∧ ¬ isRoot chainState i) →
        (find chainState 3).2.parent_[i]? = chainState.parent_[i]?) ∧
      (find chainState 3).2.sz_ = chainState.sz_ :=
  ⟨chainState_reachable, by decide,
    C14_path_halving_exact 4 chainState 3 chainState_reachable (by decide)⟩

/-- C15: path compression does not change the partition.  In a reachable state, for
`x, y < N`, the `const` `find(y)` returns the same root after a mutating `find(x)` as
before it, the roots are the same indices, and the number of parent links from `y` to
its root does not go up. -/
theorem C15_find_keeps_partition (N : Nat) (d : DisjointSetUnion) (x y : Nat)
    (h : Reachable N d) (hx : x < N) (hy : y < N) :
    ∃ r k k', find_const d y = Outcome.ok r ∧ find_const (find d x).2 y = Outcome.ok r ∧
      (∀ i, isRoot (find d x).2 i ↔ isRoot d i) ∧
      stepsToRoot d.parent_ N y = some k ∧
      stepsToRoot (find d x).2.parent_ N y = some k' ∧ k' ≤ k := by
  obtain ⟨rank, rep, I⟩ := reachable_inv h
  obtain ⟨d', e, I', _, hroots⟩ := find_inv I hx
  obtain ⟨k, k', h1, h2, hle⟩ := find_depth_le I hx hy
  refine ⟨rep y, k, k', (find_const_inv I hy).1, ?_, ?_, h1, h2, hle⟩
  · rw [e]; exact (find_const_inv I' hy).1
  · rw [e]; exact hroots

/-- Witness of C15: `chainState`, `x = 3` and `y = 3`, whose depth goes from 2 to 1. -/
theorem C15_find_keeps_partition_witness :
    Reachable 4 chainState ∧ 3 < 4 ∧ 3 < 4 ∧
    ∃ r k k', find_const chainState 3 = Outcome.ok r ∧
      find_const (find chainState 3).2 3 = Outcome.ok r ∧
      (∀ i, isRoot (find chainState 3).2 i ↔ isRoot chainState i) ∧
      stepsToRoot chainState.parent_ 4 3 = some k ∧
      stepsToRoot (find chainState 3).2.parent_ 4 3 = some k' ∧ k' ≤ k :=
  ⟨chainState_reachable, by decide, by decide,
    C15_find_keeps_partition 4 chainState 3 3 chainState_reachable (by decide) (by decide)⟩

/-- C16: logarithmic tree height.  In a reachable state, for `x < N` at `dep` parent
links from its root `r`: `2 ^ dep <= sz_[r] <= N`, so `dep` is at most the integer
logarithm of `N` in base 2. -/
theorem C16_logarithmic_height (N : Nat) (d : DisjointSetUnion) (x : Nat)
    (h : Reachable N d) (hx : x < N) :
    ∃ dep r s, stepsToRoot d.parent_ N x = some dep ∧ find_const d x = Outcome.ok r ∧
      d.sz_[r]? = some s ∧ 2 ^ dep ≤ s ∧ s ≤ N ∧ dep ≤ Nat.log 2 N := by
  obtain ⟨rank, rep, I, S⟩ := reachable_shallow h
  obtain ⟨dep, hdep, hpow⟩ := S x hx
  obtain ⟨e, hroot, hlt⟩ := find_const_inv I hx
  have hle := fiberCard_le N rep (rep x)
  refine ⟨dep, rep x, fiberCard N rep (rep x), hdep, e, I.count _ hlt hroot, hpow, hle, ?_⟩
  exact Nat.le_log_of_pow_le (by decide) (Nat.le_trans hpow hle)

/-- Witness of C16: `chainState` and `x = 3`, at depth 2 in a set of 4. -/
theorem C16_logarithmic_height_witness :
    Reachable 4 chainState ∧ 3 < 4 ∧
    ∃ dep r s, stepsToRoot chainState.parent_ 4 3 = some dep ∧
      find_const chainState 3 = Outcome.ok r ∧
      chainState.sz_[r]? = some s ∧ 2 ^ dep ≤ s ∧ s ≤ 4 ∧ dep ≤ Nat.log 2 4 :=
  ⟨chainState_reachable, by decide,
    C16_logarithmic_height 4 chainState 3 chainState_reachable (by decide)⟩

/-- C17 as stated fails: `set_size` is a `const` member, so the parent vector after
`set_size(3)` is the one before it, `[0, 0, 0, 2]` in `chainState`, whereas the mutating
`find(3)` leaves `[0, 0, 0, 0]`. -/
theorem C17_set_size_does_not_halve_counterexample :
    ¬ (∀ (N : Nat) (d : DisjointSetUnion) (x : Nat), Reachable N d → x < N →
        ∃ s, set_size d x = Outcome.ok s ∧ d.parent_ = (find d x).2.parent_) := by
  intro hall
  obtain ⟨s, _, hp⟩ := hall 4 chainState 3 chainState_reachable (by decide)
  revert hp
  decide

/-- C17 amended: in a reachable state, for `x < N`, `set_size(x)` finds the root of `x`
with the `const` find, which is also the root the mutating find returns, and returns
`sz_` at that root; being `const`, it leaves the parent vector as it was (no path is
halved). -/
theorem C17_set_size_reads_root_size (N : Nat) (d : DisjointSetUnion) (x : Nat)
    (h : Reachable N d) (hx : x < N) :
    ∃ r s, find_const d x = Outcome.ok r ∧ (find d x).1 = Outcome.ok r ∧
      d.sz_[r]? = some s ∧ set_size d x = Outcome.ok s := by
  obtain ⟨rank, rep, I⟩ := reachable_inv h
  obtain ⟨e, hroot, hlt⟩ := find_const_inv I hx
  exact ⟨rep x, fiberCard N rep (rep x), e, (find_fst_inv I hx).1, I.count _ hlt hroot,
    set_size_inv I hx⟩

/-- Witness of C17 amended: `chainState` and `x = 3`. -/
theorem C17_set_size_reads_root_size_witness :
    Reachable 4 chainState ∧ 3 < 4 ∧
    ∃ r s, find_const chainState 3 = Outcome.ok r ∧ (find chainState 3).1 = Outcome.ok r ∧
      chainState.sz_[r]? = some s ∧ set_size chainState 3 = Outcome.ok s :=
  ⟨chainState_reachable, by decide,
    C17_set_size_reads_root_size 4 chainState 3 chainState_reachable (by decide)⟩

/-- C18: the integer dot product with overflow check.  For 32-bit ints `x, y, rx, ry`,
`point2i(x, y).dot(point2i(rx, ry))` returns the exact integer `x * rx + y * ry` when
`x * rx`, `y * ry` and their sum each fit in `int`, and fails with `assertion_error`
otherwise; `norm2()` is `dot` of the point with itself, and `norm2` of `(46341, 0)`
fails on the product `46341 * 46341 = 2147488281`. -/
theorem C18_dot_int_overflow_check (x y rx ry : Int) (hx : fitsInt x) (hy : fitsInt y)
    (hrx : fitsInt rx) (hry : fitsInt ry) :
    (fitsInt (x * rx) ∧ fitsInt (y * ry) ∧ fitsInt (x * rx + y * ry) →
      (point2i.mk x y).dot (point2i.mk rx ry) = IntOutcome.value (x * rx + y * ry)) ∧
    (¬ (fitsInt (x * rx) ∧ fitsInt (y * ry) ∧ fitsInt (x * rx + y * ry)) →
      ∃ what v, (point2i.mk x y).dot (point2i.mk rx ry) = IntOutcome.assertion_error what v) ∧
    (point2i.mk x y).norm2 = (point2i.mk x y).dot (point2i.mk x y) ∧
    (point2i.mk 46341 0).norm2 = IntOutcome.assertion_error DotCheck.dot_mul_x 2147488281 := by
  have ea := wrapLongLong_mul hx hrx
  have eb := wrapLongLong_mul hy hry
  refine ⟨?_, ?_, rfl, by decide⟩
  · rintro ⟨ha, hb, hs⟩
    have es := wrapLongLong_of_fits ha hb
    have ha' := ha
    have hb' := hb
    have hs' := hs
    unfold fitsInt at ha' hb' hs'
    simp only [point2i.dot, ea, eb, es, rassert_int_fits, ha', hb', hs', and_self, if_true,
      wrapInt_of_fits hs]
  · intro hnot
    by_cases ha : fitsInt (x * rx)
    · by_cases hb : fitsInt (y * ry)
      · have hs : ¬ fitsInt (x * rx + y * ry) := fun hs => hnot ⟨ha, hb, hs⟩
        have es := wrapLongLong_of_fits ha hb
        have ha' := ha
        have hb' := hb
        have hs' := hs
        unfold fitsInt at ha' hb' hs'
        exact ⟨DotCheck.dot_sum, x * rx + y * ry, by
          simp only [point2i.dot, ea, eb, es, rassert_int_fits, ha', hb', hs', and_self,
            if_true, if_false]⟩
      · have ha' := ha
        have hb' := hb
        unfold fitsInt at ha' hb'
        exact ⟨DotCheck.dot_mul_y, y * ry, by
          simp only [point2i.dot, ea, eb, rassert_int_fits, ha', hb', and_self,
            if_true, if_false]⟩
    · have ha' := ha
      unfold fitsInt at ha'
      exact ⟨DotCheck.dot_mul_x, x * rx, by
        simp only [point2i.dot, ea, rassert_int_fits, ha', if_false]⟩

/-- Witness of C18: the points `(3, -4)` and `(5, 6)`. -/
theorem C18_dot_int_overflow_check_witness :
    fitsInt 3 ∧ fitsInt (-4) ∧ fitsInt 5 ∧ fitsInt 6 ∧
    (fitsInt (3 * 5) ∧ fitsInt (-4 * 6) ∧ fitsInt (3 * 5 + -4 * 6) →
      (point2i.mk 3 (-4)).dot (point2i.mk 5 6) = IntOutcome.value (3 * 5 + -4 * 6)) ∧
    (¬ (fitsInt (3 * 5) ∧ fitsInt (-4 * 6) ∧ fitsInt (3 * 5 + -4 * 6)) →
      ∃ what v, (point2i.mk 3 (-4)).dot (point2i.mk 5 6) =
        IntOutcome.assertion_error what v) ∧
    (point2i.mk 3 (-4)).norm2 = (point2i.mk 3 (-4)).dot (point2i.mk 3 (-4)) ∧
    (point2i.mk 46341 0).norm2 = IntOutcome.assertion_error DotCheck.dot_mul_x 2147488281 :=
  ⟨by decide, by decide, by decide, by decide,
    C18_dot_int_overflow_check 3 (-4) 5 6 (by decide) (by decide) (by decide) (by decide)⟩

/-- C19: the root precondition of `unite_roots` is needed.  In `DisjointSetUnion(3)`
after `unite(0, 1)` the index `1` is in range but not a root; `unite_roots(1, 2)`
returns `(1, 2)` without error, and afterwards all three elements have root `0` while
`set_size` answers 2 for each of them. -/
theorem C19_unite_roots_needs_roots :
    Reachable 3 (unite (construct 3) 0 1).2 ∧ 1 < 3 ∧ 2 < 3 ∧
    ¬ isRoot (unite (construct 3) 0 1).2 1 ∧
    unite_roots (unite (construct 3) 0 1).2 1 2 =
      (Outcome.ok (1, 2), { parent_ := [0, 0, 1], sz_ := [2, 2, 1] }) ∧
    (∀ x, x < 3 →
      find_const (unite_roots (unite (construct 3) 0 1).2 1 2).2 x = Outcome.ok 0 ∧
      set_size (unite_roots (unite (construct 3) 0 1).2 1 2).2 x = Outcome.ok 2) ∧
    ((Finset.range 3).filter (fun i =>
      find_const (unite_roots (unite (construct 3) 0 1).2 1 2).2 i = Outcome.ok 0)).card = 3 :=
  ⟨Reachable.unite _ 0 1 (Reachable.construct (by decide)), by decide, by decide, by decide,
    by decide, by decide, by decide⟩

/-- C20: a failing call does not change the partition.  In a reachable state, a `find`
or a `unite_roots` that fails leaves the object exactly as it was, and a `unite` that
fails leaves the size vector as it was and every element with the root it had (the
`const` members `find` and `set_size` cannot write at all).  The parent vector can
differ after a failing `unite`: in `chainState`, `unite(3, 4)` fails on `4` after the
path of `3` has been halved. -/
theorem C20_failing_call_keeps_partition (N : Nat) (d : DisjointSetUnion)
    (x a b ra rb : Nat) (h : Reachable N d) :
    (∀ e, (find d x).1 = Outcome.fail e → (find d x).2 = d) ∧
    (∀ e, (unite_roots d ra rb).1 = Outcome.fail e → (unite_roots d ra rb).2 = d) ∧
    (∀ e, (unite d a b).1 = Outcome.fail e →
      (unite d a b).2.sz_ = d.sz_ ∧
      ∀ y, y < N → ∃ r, find_const d y = Outcome.ok r ∧
        find_const (unite d a b).2 y = Outcome.ok r) ∧
    (Reachable 4 chainState ∧ 3 < 4 ∧ ¬ 4 < 4 ∧
      (unite chainState 3 4).1 = Outcome.fail (Failure.assertion_error 2391578193411 4 4) ∧
      chainState.parent_ = [0, 0, 0, 2] ∧ (unite chainState 3 4).2.parent_ = [0, 0, 0, 0]) := by
  obtain ⟨rank, rep, I⟩ := reachable_inv h
  have hsize := I.size_eq
  refine ⟨?_, ?_, ?_, chainState_reachable, by decide, by decide, by decide, by decide,
    by decide⟩
  · intro e he
    by_cases hx : x < N
    · rw [(find_fst_inv I hx).1] at he
      exact Outcome.noConfusion he
    · rw [find_out_of_range d (by rw [hsize]; exact hx)]
  · intro e he
    by_cases ha : ra < N
    · by_cases hb : rb < N
      · obtain ⟨pr, e'⟩ := unite_roots_in_range_ok d (I.slen.trans I.forest.len.symm)
          (by rw [hsize]; exact ha) (by rw [hsize]; exact hb)
        rw [e'] at he
        exact Outcome.noConfusion he
      · rw [unite_roots_out_of_range_right d (by rw [hsize]; exact ha)
          (by rw [hsize]; exact hb)]
    · rw [unite_roots_out_of_range_left d rb (by rw [hsize]; exact ha)]
  · intro e he
    by_cases ha : a < N
    · by_cases hb : b < N
      · obtain ⟨d', rank', e', _⟩ := unite_inv I ha hb
        rw [e'] at he
        exact Outcome.noConfusion he
      · obtain ⟨eu, I1, hsz⟩ := unite_out_of_range_right I ha hb
        rw [eu]
        refine ⟨hsz, ?_⟩
        intro y hy
        exact ⟨rep y, (find_const_inv I hy).1, (find_const_inv I1 hy).1⟩
    · rw [unite_out_of_range_left d b (by rw [hsize]; exact ha)]
      refine ⟨rfl, ?_⟩
      intro y hy
      exact ⟨rep y, (find_const_inv I hy).1, (find_const_inv I hy).1⟩

/-- Witness of C20: `chainState` with the failing calls `find(9)`, `unite(3, 4)` and
`unite_roots(5, 0)`. -/
theorem C20_failing_call_keeps_partition_witness :
    Reachable 4 chainState ∧
    (∀ e, (find chainState 9).1 = Outcome.fail e → (find chainState 9).2 = chainState) ∧
    (∀ e, (unite_roots chainState 5 0).1 = Outcome.fail e →
      (unite_roots chainState 5 0).2 = chainState) ∧
    (∀ e, (unite chainState 3 4).1 = Outcome.fail e →
      (unite chainState 3 4).2.sz_ = chainState.sz_ ∧
      ∀ y, y < 4 → ∃ r, find_const chainState y = Outcome.ok r ∧
        find_const (unite chainState 3 4).2 y = Outcome.ok r) ∧
    (Reachable 4 chainState ∧ 3 < 4 ∧ ¬ 4 < 4 ∧
      (unite chainState 3 4).1 = Outcome.fail (Failure.assertion_error 2391578193411 4 4) ∧
      chainState.parent_ = [0, 0, 0, 2] ∧ (unite chainState 3 4).2.parent_ = [0, 0, 0, 0]) :=
  ⟨chainState_reachable,
    C20_failing_call_keeps_partition 4 chainState 9 3 4 5 0 chainState_reachable⟩

/-! ## Symmetry of `unite` -/

/-- The two orders of the arguments give the same partition. -/
theorem uniteRep_comm_iff (N : Nat) (rep : Nat → Nat) (a b x y : Nat) :
    uniteRep N rep a b x = uniteRep N rep a b y ↔
      uniteRep N rep b a x = uniteRep N rep b a y := by
  rw [uniteRep_eq_iff, uniteRep_eq_iff]
  omega

/-- The two orders of the arguments give every element a set of the same size. -/
theorem fiberCard_uniteRep_comm (N : Nat) (rep : Nat → Nat) (a b x : Nat) :
    fiberCard N (uniteRep N rep a b) (uniteRep N rep a b x) =
      fiberCard N (uniteRep N rep b a) (uniteRep N rep b a x) := by
  unfold fiberCard
  congr 1
  apply Finset.filter_congr
  intro i _
  exact uniteRep_comm_iff N rep a b i x

/-- The representative of an element after `unite(a, b)` and after `unite(b, a)` can
differ only when the sets of `a` and `b` had the same number of elements. -/
theorem uniteRep_comm_root (N : Nat) (rep : Nat → Nat) (a b x : Nat)
    (h : uniteRep N rep a b x ≠ uniteRep N rep b a x) :
    fiberCard N rep (rep a) = fiberCard N rep (rep b) := by
  by_contra hne
  apply h
  unfold uniteRep
  by_cases hsame : rep a = rep b
  · simp only [if_pos hsame, if_pos hsame.symm]
  · have hsame' : ¬ rep b = rep a := fun e => hsame e.symm
    simp only [if_neg hsame, if_neg hsame']
    by_cases hlt : fiberCard N rep (rep a) < fiberCard N rep (rep b)
    · have hlt' : ¬ fiberCard N rep (rep b) < fiberCard N rep (rep a) := by omega
      simp only [pickRoots, if_pos hlt, if_neg hlt']
    · have hlt' : fiberCard N rep (rep b) < fiberCard N rep (rep a) := by omega
      simp only [pickRoots, if_neg hlt, if_pos hlt']

/-- C21: `unite` is symmetric up to the choice of representative.  In a reachable state,
for `a, b < N`, the calls `unite(a, b)` and `unite(b, a)`, both run on that state,
return the same boolean; afterwards, for all `x, y < N`, `x` and `y` share a root after
the one exactly when they do after the other, and `set_size(x)` is the same number; and
the root of `x` (for `x = a` the surviving root) can differ between the two only when
the sets of `a` and `b` had equal size. -/
theorem C21_unite_symmetric_up_to_root (N : Nat) (d : DisjointSetUnion) (a b x y : Nat)
    (h : Reachable N d) (ha : a < N) (hb : b < N) (hx : x < N) (hy : y < N) :
    ∃ m s sa sb r1 r2,
      (unite d a b).1 = Outcome.ok m ∧ (unite d b a).1 = Outcome.ok m ∧
      (find_const (unite d a b).2 x = find_const (unite d a b).2 y ↔
        find_const (unite d b a).2 x = find_const (unite d b a).2 y) ∧
      set_size (unite d a b).2 x = Outcome.ok s ∧
      set_size (unite d b a).2 x = Outcome.ok s ∧
      set_size d a = Outcome.ok sa ∧ set_size d b = Outcome.ok sb ∧
      find_const (unite d a b).2 x = Outcome.ok r1 ∧
      find_const (unite d b a).2 x = Outcome.ok r2 ∧
      (r1 ≠ r2 → sa = sb) := by
  obtain ⟨rank, rep, I⟩ := reachable_inv h
  obtain ⟨d1, rank1, e1, I1⟩ := unite_inv I ha hb
  obtain ⟨d2, rank2, e2, I2⟩ := unite_inv I hb ha
  have hm : decide (rep b ≠ rep a) = decide (rep a ≠ rep b) := by
    by_cases hsame : rep a = rep b
    · simp [hsame]
    · have hsame' : ¬ rep b = rep a := fun e => hsame e.symm
      simp [hsame, hsame']
  refine ⟨decide (rep a ≠ rep b), fiberCard N (uniteRep N rep a b) (uniteRep N rep a b x),
    fiberCard N rep (rep a), fiberCard N rep (rep b), uniteRep N rep a b x,
    uniteRep N rep b a x, by rw [e1], by rw [e2, hm], ?_, ?_, ?_, set_size_inv I ha,
    set_size_inv I hb, ?_, ?_, uniteRep_comm_root N rep a b x⟩
  · rw [e1, e2, (find_const_inv I1 hx).1, (find_const_inv I1 hy).1,
      (find_const_inv I2 hx).1, (find_const_inv I2 hy).1]
    constructor
    · intro e
      rw [(uniteRep_comm_iff N rep a b x y).1 (Outcome.ok.inj e)]
    · intro e
      rw [(uniteRep_comm_iff N rep a b x y).2 (Outcome.ok.inj e)]
  · rw [e1]; exact set_size_inv I1 hx
  · rw [e2, fiberCard_uniteRep_comm]; exact set_size_inv I2 hx
  · rw [e1]; exact (find_const_inv I1 hx).1
  · rw [e2]; exact (find_const_inv I2 hx).1

/-- Witness of C21: `N = 4`, the state after `unite(0, 1)`, and the singletons `2` and
`3`, a tie: `unite(2, 3)` keeps root `2`, `unite(3, 2)` keeps root `3`. -/
theorem C21_unite_symmetric_up_to_root_witness :
    Reachable 4 (unite (construct 4) 0 1).2 ∧ 2 < 4 ∧ 3 < 4 ∧ 2 < 4 ∧ 0 < 4 ∧
    ∃ m s sa sb r1 r2,
      (unite (unite (construct 4) 0 1).2 2 3).1 = Outcome.ok m ∧
      (unite (unite (construct 4) 0 1).2 3 2).1 = Outcome.ok m ∧
      (find_const (unite (unite (construct 4) 0 1).2 2 3).2 2 =
          find_const (unite (unite (construct 4) 0 1).2 2 3).2 0 ↔
        find_const (unite (unite (construct 4) 0 1).2 3 2).2 2 =
          find_const (unite (unite (construct 4) 0 1).2 3 2).2 0) ∧
      set_size (unite (unite (construct 4) 0 1).2 2 3).2 2 = Outcome.ok s ∧
      set_size (unite (unite (construct 4) 0 1).2 3 2).2 2 = Outcome.ok s ∧
      set_size (unite (construct 4) 0 1).2 2 = Outcome.ok sa ∧
      set_size (unite (construct 4) 0 1).2 3 = Outcome.ok sb ∧
      find_const (unite (unite (construct 4) 0 1).2 2 3).2 2 = Outcome.ok r1 ∧
      find_const (unite (unite (construct 4) 0 1).2 3 2).2 2 = Outcome.ok r2 ∧
      (r1 ≠ r2 → sa = sb) :=
  ⟨Reachable.unite _ 0 1 (Reachable.construct (by decide)), by decide, by decide, by decide,
    by decide,
    C21_unite_symmetric_up_to_root 4 (unite (construct 4) 0 1).2 2 3 2 0
      (Reachable.unite _ 0 1 (Reachable.construct (by decide)))
      (by decide) (by decide) (by decide) (by decide)⟩

end CVPuzzleSolver
